import Mathlib

/-!
# B-spline / NURBS curve engine: formal model and verification

A shallow embedding of the repository's curve-math layer (knot vectors, Cox–de Boor
basis functions, B-spline evaluation, Boehm knot insertion, Bezier decomposition).
The curve-math module itself is not among the provided source files — only its test
suite (`src/tests/test_06_math/test_621_bspline.py`) is — so the definitions below are
modelled from the specification (`spec.md`), with the test suite fixing concrete
behaviour (default order, knot normalization on construction, in-place refinement).

Numbers are represented exactly: rational numbers `ℚ` wherever the program's data is
rational, and an exact quadratic-tower field `ℚ(√5)(√2)` for the chord-length fit of
`from_fit_points`, whose intermediate values are irrational.  Comparisons are threaded
as an explicit boolean comparator so that the same definitions serve both fields.
-/

set_option linter.unusedSectionVars false

namespace BSpl

/-- 3-component points, the coordinate type of control points. -/
def Vec3 (F : Type) : Type := F × F × F

variable {F : Type} [Field F] [DecidableEq F]

instance : Add (Vec3 F) := ⟨fun a b => (a.1 + b.1, a.2.1 + b.2.1, a.2.2 + b.2.2)⟩

instance : Zero (Vec3 F) := ⟨((0 : F), (0 : F), (0 : F))⟩

instance : SMul F (Vec3 F) := ⟨fun c a => (c * a.1, c * a.2.1, c * a.2.2)⟩

instance [DecidableEq F] : DecidableEq (Vec3 F) := instDecidableEqProd

/-- Knot-vector access `knots[i]` (theorem hypotheses keep indices in range). -/
def knotGet (knots : List F) (i : ℕ) : F := knots.getD i 0

/-- `normalize_knots(knots)`: affine rescale so the first value maps to 0 and the
last to 1 (spec §4.1, mirrored from the source via
`tests/test_06_math/test_621_bspline.py::test_normalize_knots`). -/
def normalize_knots (knots : List F) : List F :=
  let min_val := knots.headD 0
  let max_val := knots.getLastD 0 - min_val
  knots.map (fun v => (v - min_val) / max_val)

/-- `subdivide_params(p)`: insert the arithmetic midpoint between every consecutive
pair of an ordered parameter sequence (spec §4.7). -/
def subdivide_params : List F → List F
  | [] => []
  | [x] => [x]
  | x :: y :: rest => x :: (x + y) / 2 :: subdivide_params (y :: rest)

/-- `open_uniform_knot_vector(count, order)`: clamped knot vector with the first and
last `order` entries repeated and uniformly spaced interior knots (spec §4.1). -/
def open_uniform_knot_vector (count order : ℕ) : List F :=
  List.replicate order 0
    ++ (List.range (count - order)).map (fun i => ((i + 1 : ℕ) : F))
    ++ List.replicate order (((count - order + 1 : ℕ) : F))

/-- Downward scan: the largest index `j` with `lo < j ≤ hi` and `pred j = true`,
else `lo`.  Executable core of the span search. -/
def downSearch (pred : ℕ → Bool) (lo : ℕ) : ℕ → ℕ
  | 0 => lo
  | h + 1 => if h + 1 ≤ lo then lo else if pred (h + 1) then h + 1 else downSearch pred lo h

/-- `find_span(u)`: index `i` with `knots[i] ≤ u < knots[i+1]`, restricted to the valid
span range `[degree, count-1]`; `u` at (or beyond) the domain maximum `knots[count]`
returns the last valid span `count-1` (spec §4.1, clamped convention).  The comparator
`le?` decides `≤` on `F`. -/
def find_span (le? : F → F → Bool) (knots : List F) (degree count : ℕ) (u : F) : ℕ :=
  if le? (knotGet knots count) u then count - 1
  else downSearch (fun j => le? (knotGet knots j) u) degree (count - 1)

/-- Recursive Cox–de Boor basis function `N_{i,p}(u)` (spec §4.2 / glossary), the
independent reference implementation `bspline_basis` of the source.  Division by a
zero knot difference yields `0`, matching the source's explicit zero guards. -/
def bspline_basis (le? : F → F → Bool) (u : F) (i p : ℕ) (knots : List F) : F :=
  match p with
  | 0 => if le? (knotGet knots i) u && !le? (knotGet knots (i + 1)) u then 1 else 0
  | q + 1 =>
      (u - knotGet knots i) / (knotGet knots (i + q + 1) - knotGet knots i)
          * bspline_basis le? u i q knots
        + (knotGet knots (i + q + 2) - u)
            / (knotGet knots (i + q + 2) - knotGet knots (i + 1))
          * bspline_basis le? u (i + 1) q knots

/-- `bspline_basis_vector(u, count, degree, knots)`: the full-length vector of the
recursive basis values, with the domain-maximum special case setting the last entry
to 1 (the half-open degree-0 intervals would otherwise make every entry vanish
there). -/
def bspline_basis_vector (le? : F → F → Bool) (u : F) (count degree : ℕ)
    (knots : List F) : List F :=
  let basis := (List.range count).map (fun i => bspline_basis le? u i degree knots)
  if u = knots.getLastD 0 then basis.set (count - 1) 1 else basis

/-- One inner pass of the iterative triangular table (spec §4.2): consumes the
degree-`j-1` row entries with the running `saved` term and emits the degree-`j` row. -/
def basisRowStep (knots : List F) (u : F) (span j : ℕ) : List F → F → ℕ → List F
  | [], saved, _ => [saved]
  | n :: rest, saved, r =>
      let temp := n / (knotGet knots (span + r + 1) - knotGet knots (span + r + 1 - j))
      (saved + (knotGet knots (span + r + 1) - u) * temp)
        :: basisRowStep knots u span j rest ((u - knotGet knots (span + 1 - j + r)) * temp) (r + 1)

/-- The iterative (non-recursive) Cox–de Boor triangular table: row `p` of local basis
values `N_{span-p+r,p}(u)`, `r = 0..p` (spec §4.2). -/
def basisRow (knots : List F) (u : F) (span p : ℕ) : List F :=
  (List.range p).foldl (fun N j => basisRowStep knots u span (j + 1) N 0 0) [1]

/-- `basis_vector(u)`: full-length basis vector computed by span search plus the
iterative triangular table, entries outside the current span's support exactly zero
(spec §4.2). -/
def basis_vector (le? : F → F → Bool) (knots : List F) (order count : ℕ) (u : F) :
    List F :=
  let p := order - 1
  let span := find_span le? knots p count u
  let N := basisRow knots u span p
  (List.range count).map (fun i =>
    if span - p ≤ i ∧ i ≤ span then N.getD (i - (span - p)) 0 else 0)

/-- The Curve data (spec §3): control points, order, knot vector, optional weights
(`[]` means non-rational). -/
structure BSpline (F : Type) where
  control_points : List (Vec3 F)
  order : ℕ
  knots : List F
  weights : List F

/-- Modelled from the spec (§3, §4.3) and
`test_621_bspline.py::test_normalize_knots_if_needed`: construction from control
points, order, optional explicit knots (normalized on construction; default is the
open-uniform vector) and optional weights. -/
def mkBSpline (cps : List (Vec3 F)) (order : ℕ) (knots : Option (List F))
    (weights : List F) : BSpline F :=
  { control_points := cps
    order := order
    knots := normalize_knots (knots.getD (open_uniform_knot_vector cps.length order))
    weights := weights }

/-- Sum of a function over `0..n-1`, the executable form of `∑ i in range n`. -/
def rsum [Zero β] [Add β] (n : ℕ) (f : ℕ → β) : β := ((List.range n).map f).sum

/-- `point(t)` (spec §4.3): `Σ N_{i,p}(t)·P_i`, via the iterative basis vector; for
rational curves the homogeneous sum is divided by `Σ N_{i,p}(t)·w_i`. -/
def BSpline.point (le? : F → F → Bool) (s : BSpline F) (u : F) : Vec3 F :=
  let count := s.control_points.length
  let N := basis_vector le? s.knots s.order count u
  if s.weights = [] then
    rsum count (fun i => N.getD i 0 • s.control_points.getD i 0)
  else
    let d := rsum count (fun i => N.getD i 0 * s.weights.getD i 1)
    d⁻¹ • rsum count (fun i => (N.getD i 0 * s.weights.getD i 1) • s.control_points.getD i 0)

/-- The knot vector with `t` inserted after position `span`. -/
def insKnots (knots : List F) (span : ℕ) (t : F) : List F :=
  knots.take (span + 1) ++ t :: knots.drop (span + 1)

/-- The Boehm blending coefficient of level `q` for new control point `i` when
inserting `t` whose span is `k`: `1` left of the affected band, the knot-ratio
`(t - knots[i])/(knots[i+q] - knots[i])` inside it, `0` right of it (spec §4.4). -/
def lam (knots : List F) (q k : ℕ) (t : F) (i : ℕ) : F :=
  if i + q ≤ k then 1
  else if i ≤ k then (t - knotGet knots i) / (knotGet knots (i + q) - knotGet knots i)
  else 0

/-- Boehm's knot-insertion step (spec §4.4): new control points as convex combinations
with the blending ratios of the insertion formula, and the knot vector with `t`
inserted after the found span. -/
def boehm_insert (le? : F → F → Bool) (cps : List (Vec3 F)) (knots : List F)
    (degree : ℕ) (t : F) : List (Vec3 F) × List F :=
  let count := cps.length
  let span := find_span le? knots degree count t
  let newCps := (List.range (count + 1)).map (fun i =>
    if i + degree ≤ span then cps.getD i 0
    else if span < i then cps.getD (i - 1) 0
    else
      let a := (t - knotGet knots i) / (knotGet knots (i + degree) - knotGet knots i)
      (1 - a) • cps.getD (i - 1) 0 + a • cps.getD i 0)
  (newCps, insKnots knots span t)

/-- `insert_knot(t)` as the source's test observes it
(`test_621_bspline.py::test_bspline_insert_knot`): the method refines the receiver in
place; the returned value is the receiver's state after the call. -/
def BSpline.insert_knot (le? : F → F → Bool) (s : BSpline F) (t : F) : BSpline F :=
  let r := boehm_insert le? s.control_points s.knots (s.order - 1) t
  { s with control_points := r.1, knots := r.2 }

/-- An affine map on `Vec3`: three linear rows plus a translation (the curve-math
boundary's `Matrix44` restricted to its affine action on points). -/
structure AffineMap3 (F : Type) where
  rx : Vec3 F
  ry : Vec3 F
  rz : Vec3 F
  v : Vec3 F

/-- Dot product of two `Vec3`. -/
def dot3 (a b : Vec3 F) : F := a.1 * b.1 + a.2.1 * b.2.1 + a.2.2 * b.2.2

/-- Apply an affine map to a point. -/
def AffineMap3.apply (M : AffineMap3 F) (p : Vec3 F) : Vec3 F :=
  (dot3 M.rx p + M.v.1, dot3 M.ry p + M.v.2.1, dot3 M.rz p + M.v.2.2)

/-- The affine translation by `(x, y, z)` (`Matrix44.translate`). -/
def translate3 (x y z : F) : AffineMap3 F :=
  { rx := (1, 0, 0), ry := (0, 1, 0), rz := (0, 0, 1), v := (x, y, z) }

/-- `transform(affine_map)` (spec §4.3): applies the map to every control point,
leaves knots and weights unchanged; as the source's test observes it
(`test_transform_interface`), the receiver is updated in place and the returned value
is its state after the call. -/
def BSpline.transform (M : AffineMap3 F) (s : BSpline F) : BSpline F :=
  { s with control_points := s.control_points.map M.apply }

/-- The decidable `≤` comparator on `ℚ`. -/
def qle (a b : ℚ) : Bool := decide (a ≤ b)

/-- `max_t`: the domain maximum, the largest (= last) knot value. -/
def BSpline.max_t (s : BSpline F) : F := s.knots.getLastD 0

/-- Iterated single-knot insertion (`insert_knot(t, multiplicity=r)` body, spec §4.3/4.4). -/
def insertTimes (le? : F → F → Bool) (s : BSpline F) (t : F) : ℕ → BSpline F
  | 0 => s
  | r + 1 => insertTimes le? (s.insert_knot le? t) t r

/-- The distinct interior knot values of a curve, in order of first appearance
(strictly between the first and last knot value). -/
def interiorKnots (le? : F → F → Bool) (s : BSpline F) : List F :=
  (s.knots.filter
    (fun k => !le? k (s.knots.headD 0) && !le? (s.knots.getLastD 0) k)).dedup

/-- `bezier_decomposition()` (spec §4.5): raise every distinct interior knot value to
multiplicity `degree` by repeated Boehm insertion, then cut the refined control polygon
into consecutive `degree+1`-point Bezier segments that overlap in exactly their shared
boundary control point. -/
def BSpline.bezier_decomposition (le? : F → F → Bool) (s : BSpline F) :
    List (List (Vec3 F)) :=
  let p := s.order - 1
  let r := (interiorKnots le? s).foldl
    (fun c t => insertTimes le? c t (p - c.knots.count t)) s
  let segs := (r.control_points.length - 1) / p
  (List.range segs).map (fun j => (r.control_points.drop (j * p)).take (p + 1))

/-- One cubic Bezier segment spanning two consecutive curve samples (spec §4.6 fixed
count mode: interpolation of position at interval endpoints, inner control points on
the chord). -/
def chordCubic (a b : Vec3 F) : Vec3 F × Vec3 F × Vec3 F × Vec3 F :=
  (a, (3 : F)⁻¹ • ((2 : F) • a + b), (3 : F)⁻¹ • (a + (2 : F) • b), b)

/-- Modelled from the spec §4.6 (fixed-count mode of `cubic_bezier_approximation`):
evaluate `segments+1` uniformly spaced parameter samples over the domain and produce
one cubic Bezier per interval.  (The adaptive, level-bounded mode subdivides by a
flatness criterion whose threshold the spec does not fix, so it is not modelled.) -/
def BSpline.cubic_bezier_approximation (le? : F → F → Bool) (s : BSpline F)
    (segments : ℕ) : List (Vec3 F × Vec3 F × Vec3 F × Vec3 F) :=
  let pts := (List.range (segments + 1)).map
    (fun i => s.point le? ((i : F) * s.max_t / (segments : F)))
  (List.range segments).map (fun i => chordCubic (pts.getD i 0) (pts.getD (i + 1) 0))

/-- A method call observed as Python does: the pair (returned value, receiver state
after the call).  `bezier_decomposition` operates on a private working copy (spec
§4.5), so the receiver state after the call is the receiver itself. -/
def bezierDecompositionCall (le? : F → F → Bool) (s : BSpline F) :
    List (List (Vec3 F)) × BSpline F :=
  (s.bezier_decomposition le?, s)

/-- Method-call view of the fixed-count approximation: pure with respect to the
receiver (spec §4.6, §5). -/
def cubicBezierApproximationCall (le? : F → F → Bool) (s : BSpline F) (segments : ℕ) :
    List (Vec3 F × Vec3 F × Vec3 F × Vec3 F) × BSpline F :=
  (s.cubic_bezier_approximation le? segments, s)

/-- Method-call view of `insert_knot`: the receiver is refined in place
(`test_621_bspline.py::test_bspline_insert_knot`), so the receiver state after the
call is the refined curve. -/
def insertKnotCall (le? : F → F → Bool) (s : BSpline F) (t : F) : BSpline F :=
  s.insert_knot le? t

/-- The `DEFPOINTS` control points of the test suite. -/
def defpoints : List (Vec3 ℚ) :=
  [(0, 0, 0), (10, 20, 20), (30, 10, 25), (40, 10, 25), (50, 0, 30)]

/-- The 8 fit/control points used by `test_bspline_insert_knot`. -/
def points8 : List (Vec3 ℚ) :=
  [(0, 0, 0), (10, 20, 0), (30, 10, 0), (40, 10, 0), (50, 0, 0),
   (60, 20, 0), (70, 50, 0), (80, 70, 0)]

/-- Componentwise closeness of two points up to tolerance `eps`. -/
abbrev pointWithin (eps : ℚ) (p q : Vec3 ℚ) : Prop :=
  |p.1 - q.1| ≤ eps ∧ |p.2.1 - q.2.1| ≤ eps ∧ |p.2.2 - q.2.2| ≤ eps

/-- The real field ℚ(√2, √5), represented exactly: `a + b·√2 + c·√5 + d·√10` with
rational coefficients.  The chord lengths of the fit-point interpolation
(`from_fit_points`) live in this field, so the source's floating computation is
modelled exactly. -/
@[ext] structure K where
  a : ℚ
  b : ℚ
  c : ℚ
  d : ℚ
deriving DecidableEq

instance : Zero K := ⟨⟨0, 0, 0, 0⟩⟩

instance : One K := ⟨⟨1, 0, 0, 0⟩⟩

instance : Add K := ⟨fun x y => ⟨x.a + y.a, x.b + y.b, x.c + y.c, x.d + y.d⟩⟩

instance : Neg K := ⟨fun x => ⟨-x.a, -x.b, -x.c, -x.d⟩⟩

instance : Mul K :=
  ⟨fun x y =>
    ⟨x.a * y.a + 2 * (x.b * y.b) + 5 * (x.c * y.c) + 10 * (x.d * y.d),
     x.a * y.b + x.b * y.a + 5 * (x.c * y.d) + 5 * (x.d * y.c),
     x.a * y.c + x.c * y.a + 2 * (x.b * y.d) + 2 * (x.d * y.b),
     x.a * y.d + x.d * y.a + x.b * y.c + x.c * y.b⟩⟩

/-- Inverse in ℚ(√2, √5): conjugate over √5, then over √2; zero maps to zero
(each coordinate divides by the rational norm, and ℚ division by zero is zero). -/
def kInv (x : K) : K :=
  let e := x.a ^ 2 + 2 * x.b ^ 2 - 5 * x.c ^ 2 - 10 * x.d ^ 2
  let f := 2 * (x.a * x.b) - 10 * (x.c * x.d)
  let den := e ^ 2 - 2 * f ^ 2
  ⟨(x.a * e - 2 * (x.b * f)) / den, (x.b * e - x.a * f) / den,
   (2 * (x.d * f) - x.c * e) / den, (x.c * f - x.d * e) / den⟩

instance : Inv K := ⟨kInv⟩

@[simp] theorem K.zero_a : (0 : K).a = 0 := rfl

@[simp] theorem K.zero_b : (0 : K).b = 0 := rfl

@[simp] theorem K.zero_c : (0 : K).c = 0 := rfl

@[simp] theorem K.zero_d : (0 : K).d = 0 := rfl

@[simp] theorem K.one_a : (1 : K).a = 1 := rfl

@[simp] theorem K.one_b : (1 : K).b = 0 := rfl

@[simp] theorem K.one_c : (1 : K).c = 0 := rfl

@[simp] theorem K.one_d : (1 : K).d = 0 := rfl

@[simp] theorem K.add_a (x y : K) : (x + y).a = x.a + y.a := rfl

@[simp] theorem K.add_b (x y : K) : (x + y).b = x.b + y.b := rfl

@[simp] theorem K.add_c (x y : K) : (x + y).c = x.c + y.c := rfl

@[simp] theorem K.add_d (x y : K) : (x + y).d = x.d + y.d := rfl

@[simp] theorem K.neg_a (x : K) : (-x).a = -x.a := rfl

@[simp] theorem K.neg_b (x : K) : (-x).b = -x.b := rfl

@[simp] theorem K.neg_c (x : K) : (-x).c = -x.c := rfl

@[simp] theorem K.neg_d (x : K) : (-x).d = -x.d := rfl

@[simp] theorem K.mul_a (x y : K) :
    (x * y).a = x.a * y.a + 2 * (x.b * y.b) + 5 * (x.c * y.c) + 10 * (x.d * y.d) := rfl

@[simp] theorem K.mul_b (x y : K) :
    (x * y).b = x.a * y.b + x.b * y.a + 5 * (x.c * y.d) + 5 * (x.d * y.c) := rfl

@[simp] theorem K.mul_c (x y : K) :
    (x * y).c = x.a * y.c + x.c * y.a + 2 * (x.b * y.d) + 2 * (x.d * y.b) := rfl

@[simp] theorem K.mul_d (x y : K) :
    (x * y).d = x.a * y.d + x.d * y.a + x.b * y.c + x.c * y.b := rfl

@[simp] theorem K.inv_a (x : K) :
    x⁻¹.a = (x.a * (x.a ^ 2 + 2 * x.b ^ 2 - 5 * x.c ^ 2 - 10 * x.d ^ 2)
        - 2 * (x.b * (2 * (x.a * x.b) - 10 * (x.c * x.d))))
      / ((x.a ^ 2 + 2 * x.b ^ 2 - 5 * x.c ^ 2 - 10 * x.d ^ 2) ^ 2
        - 2 * (2 * (x.a * x.b) - 10 * (x.c * x.d)) ^ 2) := rfl

@[simp] theorem K.inv_b (x : K) :
    x⁻¹.b = (x.b * (x.a ^ 2 + 2 * x.b ^ 2 - 5 * x.c ^ 2 - 10 * x.d ^ 2)
        - x.a * (2 * (x.a * x.b) - 10 * (x.c * x.d)))
      / ((x.a ^ 2 + 2 * x.b ^ 2 - 5 * x.c ^ 2 - 10 * x.d ^ 2) ^ 2
        - 2 * (2 * (x.a * x.b) - 10 * (x.c * x.d)) ^ 2) := rfl

@[simp] theorem K.inv_c (x : K) :
    x⁻¹.c = (2 * (x.d * (2 * (x.a * x.b) - 10 * (x.c * x.d)))
        - x.c * (x.a ^ 2 + 2 * x.b ^ 2 - 5 * x.c ^ 2 - 10 * x.d ^ 2))
      / ((x.a ^ 2 + 2 * x.b ^ 2 - 5 * x.c ^ 2 - 10 * x.d ^ 2) ^ 2
        - 2 * (2 * (x.a * x.b) - 10 * (x.c * x.d)) ^ 2) := rfl

@[simp] theorem K.inv_d (x : K) :
    x⁻¹.d = (x.c * (2 * (x.a * x.b) - 10 * (x.c * x.d))
        - x.d * (x.a ^ 2 + 2 * x.b ^ 2 - 5 * x.c ^ 2 - 10 * x.d ^ 2))
      / ((x.a ^ 2 + 2 * x.b ^ 2 - 5 * x.c ^ 2 - 10 * x.d ^ 2) ^ 2
        - 2 * (2 * (x.a * x.b) - 10 * (x.c * x.d)) ^ 2) := rfl

instance K.addCommGroup : AddCommGroup K := by
  refine
  { add := (· + ·)
    zero := 0
    neg := Neg.neg
    nsmul := @nsmulRec K ⟨0⟩ ⟨(· + ·)⟩
    zsmul := @zsmulRec K ⟨0⟩ ⟨(· + ·)⟩ ⟨Neg.neg⟩ (@nsmulRec K ⟨0⟩ ⟨(· + ·)⟩)
    add_assoc := ?_
    zero_add := ?_
    add_zero := ?_
    add_comm := ?_
    neg_add_cancel := ?_ } <;>
  intros <;>
  ext <;>
  simp <;>
  ring

instance K.addGroupWithOne : AddGroupWithOne K :=
  { K.addCommGroup with
    natCast := fun n => ⟨(n : ℚ), 0, 0, 0⟩
    intCast := fun z => ⟨(z : ℚ), 0, 0, 0⟩
    one := 1
    natCast_zero := by
      show (⟨((0 : ℕ) : ℚ), 0, 0, 0⟩ : K) = 0
      ext <;> simp
    natCast_succ := fun n => by
      show (⟨((n + 1 : ℕ) : ℚ), 0, 0, 0⟩ : K) = ⟨(n : ℚ), 0, 0, 0⟩ + 1
      ext <;> simp
    intCast_ofNat := fun n => by
      show (⟨((Int.ofNat n : ℤ) : ℚ), 0, 0, 0⟩ : K) = ⟨((n : ℕ) : ℚ), 0, 0, 0⟩
      ext <;> simp
    intCast_negSucc := fun n => by
      show (⟨((Int.negSucc n : ℤ) : ℚ), 0, 0, 0⟩ : K) = -⟨((n + 1 : ℕ) : ℚ), 0, 0, 0⟩
      ext <;> simp [Int.cast_negSucc] }

instance K.commRing : CommRing K := by
  refine
  { K.addGroupWithOne with
    mul := (· * ·)
    npow := @npowRec K ⟨1⟩ ⟨(· * ·)⟩
    add_comm := ?_
    left_distrib := ?_
    right_distrib := ?_
    zero_mul := ?_
    mul_zero := ?_
    mul_assoc := ?_
    one_mul := ?_
    mul_one := ?_
    mul_comm := ?_ } <;>
  intros <;>
  ext <;>
  simp <;>
  ring

theorem rat_sq_ne (n : ℕ) (hn : n = 2 ∨ n = 5 ∨ n = 10) (q : ℚ) : q ^ 2 ≠ (n : ℚ) := by
  intro h
  have hnum : q.num ^ 2 = (n : ℤ) := by
    have h1 : (q ^ 2).num = ((n : ℚ)).num := by rw [h]
    rwa [Rat.num_pow, Rat.num_natCast] at h1
  have hm : q.num.natAbs ^ 2 = n := by
    have h2 := congrArg Int.natAbs hnum
    rwa [Int.natAbs_pow, Int.natAbs_ofNat] at h2
  have hle : q.num.natAbs ≤ 10 := by
    have h1 : q.num.natAbs ≤ q.num.natAbs ^ 2 := Nat.le_self_pow (by omega) _
    rw [hm] at h1
    rcases hn with rfl | rfl | rfl <;> omega
  have hsmall : ∀ m : ℕ, m ≤ 10 → ¬(m ^ 2 = 2 ∨ m ^ 2 = 5 ∨ m ^ 2 = 10) := by decide
  refine hsmall _ hle ?_
  rcases hn with rfl | rfl | rfl
  · exact Or.inl hm
  · exact Or.inr (Or.inl hm)
  · exact Or.inr (Or.inr hm)

theorem rat_sq_pair (n : ℕ) (hn : n = 2 ∨ n = 5 ∨ n = 10) (p q : ℚ)
    (h : p ^ 2 = (n : ℚ) * q ^ 2) : p = 0 ∧ q = 0 := by
  by_cases hq : q = 0
  · subst hq
    refine ⟨?_, rfl⟩
    have hp : p ^ 2 = 0 := by rw [h]; ring
    exact pow_eq_zero_iff (by omega) |>.mp hp
  · exfalso
    refine rat_sq_ne n hn (p / q) ?_
    rw [div_pow, h, mul_div_assoc, div_self (pow_ne_zero 2 hq), mul_one]

theorem k_entire (x : K)
    (he : x.a ^ 2 + 2 * x.b ^ 2 - 5 * x.c ^ 2 - 10 * x.d ^ 2 = 0)
    (hf : 2 * (x.a * x.b) - 10 * (x.c * x.d) = 0) : x = 0 := by
  obtain ⟨a, b, c, d⟩ := x
  dsimp only at he hf
  have key : (a ^ 2 - 2 * b ^ 2) ^ 2 = 25 * (c ^ 2 - 2 * d ^ 2) ^ 2 := by
    linear_combination (a ^ 2 + 2 * b ^ 2 + 5 * c ^ 2 + 10 * d ^ 2) * he
      - 2 * (2 * (a * b) + 10 * (c * d)) * hf
  have hfac : (a ^ 2 - 2 * b ^ 2 - 5 * (c ^ 2 - 2 * d ^ 2))
      * (a ^ 2 - 2 * b ^ 2 + 5 * (c ^ 2 - 2 * d ^ 2)) = 0 := by
    linear_combination key
  rcases mul_eq_zero.mp hfac with hca | hca
  · obtain ⟨ha0, hc0⟩ := rat_sq_pair 5 (by tauto) a c (by push_cast; linarith)
    obtain ⟨hb0, hd0⟩ := rat_sq_pair 5 (by tauto) b d (by push_cast; linarith)
    rw [ha0, hb0, hc0, hd0]
    rfl
  · obtain ⟨ha0, hd0⟩ := rat_sq_pair 10 (by tauto) a d (by push_cast; linarith)
    obtain ⟨hb20, hc0⟩ := rat_sq_pair 10 (by tauto) (2 * b) c (by push_cast; linarith)
    have hb0 : b = 0 := by linarith
    rw [ha0, hb0, hc0, hd0]
    rfl

instance : Field K where
  __ := K.commRing
  inv := Inv.inv
  exists_pair_ne := ⟨0, 1, fun h => by
    have h1 := congrArg K.a h
    simp at h1⟩
  inv_zero := by
    ext <;> simp
  mul_inv_cancel := by
    intro x hx
    have hden : (x.a ^ 2 + 2 * x.b ^ 2 - 5 * x.c ^ 2 - 10 * x.d ^ 2) ^ 2
        - 2 * (2 * (x.a * x.b) - 10 * (x.c * x.d)) ^ 2 ≠ 0 := by
      intro h0
      obtain ⟨he, hf⟩ := rat_sq_pair 2 (by tauto)
        (x.a ^ 2 + 2 * x.b ^ 2 - 5 * x.c ^ 2 - 10 * x.d ^ 2)
        (2 * (x.a * x.b) - 10 * (x.c * x.d)) (by push_cast; linarith)
      exact hx (k_entire x he hf)
    ext
    · rw [K.mul_a]
      simp only [K.inv_a, K.inv_b, K.inv_c, K.inv_d, K.one_a]
      field_simp
      ring
    · rw [K.mul_b]
      simp only [K.inv_a, K.inv_b, K.inv_c, K.inv_d, K.one_b]
      field_simp
      ring
    · rw [K.mul_c]
      simp only [K.inv_a, K.inv_b, K.inv_c, K.inv_d, K.one_c]
      field_simp
      ring
    · rw [K.mul_d]
      simp only [K.inv_a, K.inv_b, K.inv_c, K.inv_d, K.one_d]
      field_simp
      ring
  nnqsmul := _
  qsmul := _

/-- Exact sign of `e + f·√2` by comparing squares on mixed-sign branches
(`e > 0 > f`: positive iff `e² > 2f²`, and symmetrically). -/
def ksgn2 (e f : ℚ) : Int :=
  if e = 0 ∧ f = 0 then 0
  else if 0 ≤ e ∧ 0 ≤ f then 1
  else if e ≤ 0 ∧ f ≤ 0 then -1
  else if 0 < e then (if 2 * f ^ 2 < e ^ 2 then 1 else -1)
  else (if e ^ 2 < 2 * f ^ 2 then 1 else -1)

/-- Exact sign of an element of ℚ(√2, √5), written `P + Q·√5` with
`P, Q ∈ ℚ(√2)`: equal signs decide directly, mixed signs compare `P²` with
`5·Q²` inside ℚ(√2). -/
def ksgn (x : K) : Int :=
  let sP := ksgn2 x.a x.b
  let sQ := ksgn2 x.c x.d
  if sQ = 0 then sP
  else if sP = 0 then sQ
  else if sP = sQ then sP
  else sP * ksgn2 (x.a ^ 2 + 2 * x.b ^ 2 - 5 * (x.c ^ 2 + 2 * x.d ^ 2))
    (2 * (x.a * x.b) - 10 * (x.c * x.d))

/-- The order of ℚ(√2, √5) as a subfield of the reals, decided exactly:
`x ≤ y` iff `y - x` has nonnegative sign. -/
def kle (x y : K) : Bool := decide (0 ≤ ksgn (y - x))

/-- Embedding of the rationals into ℚ(√2, √5). -/
def kofQ (q : ℚ) : K := ⟨q, 0, 0, 0⟩

/-- First row with a nonzero leading coefficient, and the remaining rows. -/
def gaussPivot : List (List F × Vec3 F) → Option ((List F × Vec3 F) × List (List F × Vec3 F))
  | [] => none
  | r :: rest =>
      if r.1.headD 0 ≠ 0 then some (r, rest)
      else match gaussPivot rest with
        | none => none
        | some (p, others) => some (p, r :: others)

/-- Sum of a list of points. -/
def vecListSum : List (Vec3 F) → Vec3 F
  | [] => 0
  | v :: rest => v + vecListSum rest

/-- Modelled from the spec: exact Gaussian elimination with back substitution,
solving the interpolation system rows `(coefficients, right-hand point)`; the
fuel is the column count. -/
def gaussSolve : ℕ → List (List F × Vec3 F) → List (Vec3 F)
  | 0, _ => []
  | fuel + 1, rows =>
      match gaussPivot rows with
      | none => []
      | some (p, others) =>
          let pc := p.1.headD 0
          let prow : List F × Vec3 F := (p.1.tail.map (fun x => x / pc), pc⁻¹ • p.2)
          let others2 := others.map (fun r =>
            let g := r.1.headD 0
            (List.zipWith (fun x y => x - g * y) r.1.tail prow.1,
             r.2 + (-g) • prow.2))
          let sol := gaussSolve fuel others2
          (prow.2 + (-1 : F) • vecListSum (List.zipWith (fun cf s => cf • s) prow.1 sol))
            :: sol

/-- Modelled from the spec: the chord-length parameter vector `t₀ = 0`,
`tᵢ = (Σ_{j<i} dⱼ) / (Σ dⱼ)` built from the chord lengths between consecutive
fit points. -/
def chordParams (dists : List F) : List F :=
  let total := dists.sum
  (List.range (dists.length + 1)).map (fun i => (dists.take i).sum / total)

/-- Modelled from the spec: the cubic interpolation knot vector — clamped ends of
multiplicity 4 with the interior chord parameters `t₂, …, t_{n-3}` in between. -/
def cubicFitKnots (tv : List F) : List F :=
  List.replicate 4 0 ++ (tv.drop 2).take (tv.length - 4) ++ List.replicate 4 1

/-- Modelled from the spec: `from_fit_points` (spec §4.3 construction "from which a
curve is interpolated", degree 3, regression values of §8) as standard global cubic
interpolation through the fit points — chord-length parameters, clamped knot vector
with the interior chord parameters, and the collocation system solved exactly; this
is the unique standard scheme that reproduces the spec's pinned regression literals.
The exact chord lengths (square roots of the squared chord distances, in general not
rational) are supplied by the caller and certified against the squared distances
where this definition is used. -/
def fromFitPoints (le? : F → F → Bool) (points : List (Vec3 F)) (dists : List F) :
    BSpline F :=
  let tv := chordParams dists
  let knots := cubicFitKnots tv
  let count := points.length
  let rows := List.zipWith (fun u pt => (basis_vector le? knots 4 count u, pt)) tv points
  { control_points := gaussSolve count rows, order := 4, knots := knots, weights := [] }

/-- Componentwise `|x| ≤ eps` under a comparator. -/
def absLeWith (le? : F → F → Bool) (x eps : F) : Bool := le? (-eps) x && le? x eps

/-- Componentwise closeness of two points under a comparator. -/
def pointCloseWith (le? : F → F → Bool) (eps : F) (p q : Vec3 F) : Bool :=
  absLeWith le? (p.1 - q.1) eps && absLeWith le? (p.2.1 - q.2.1) eps
    && absLeWith le? (p.2.2 - q.2.2) eps

/-- Pointwise closeness of two control-point lists of equal length. -/
def segCloseWith (le? : F → F → Bool) (eps : F) (xs ys : List (Vec3 F)) : Bool :=
  (xs.length == ys.length) && (List.zipWith (pointCloseWith le? eps) xs ys).all (fun b => b)

/-- Squared Euclidean distance of two points. -/
def sqDist3 (p q : Vec3 F) : F :=
  (p.1 - q.1) * (p.1 - q.1) + (p.2.1 - q.2.1) * (p.2.1 - q.2.1)
    + (p.2.2 - q.2.2) * (p.2.2 - q.2.2)

/-- The 8 fit points of `test_bezier_decomposition`, embedded into ℚ(√2, √5). -/
def fit8 : List (Vec3 K) :=
  [(kofQ 0, kofQ 0, kofQ 0), (kofQ 10, kofQ 20, kofQ 0), (kofQ 30, kofQ 10, kofQ 0),
   (kofQ 40, kofQ 10, kofQ 0), (kofQ 50, kofQ 0, kofQ 0), (kofQ 60, kofQ 20, kofQ 0),
   (kofQ 70, kofQ 50, kofQ 0), (kofQ 80, kofQ 70, kofQ 0)]

/-- The exact chord lengths between consecutive points of `fit8`:
`10√5, 10√5, 10, 10√2, 10√5, 10√10, 10√5` (certified against the squared
distances in the claim). -/
def dists8 : List K :=
  [⟨0, 0, 10, 0⟩, ⟨0, 0, 10, 0⟩, ⟨10, 0, 0, 0⟩, ⟨0, 10, 0, 0⟩, ⟨0, 0, 10, 0⟩,
   ⟨0, 0, 0, 10⟩, ⟨0, 0, 10, 0⟩]

/-- The first regression segment of `test_bezier_decomposition`, as exact
rationals. -/
def litFirst : List (Vec3 K) :=
  [(kofQ 0, kofQ 0, kofQ 0),
   (kofQ (202070813064438/100000000000000), kofQ (3958989657555839/100000000000000), kofQ 0),
   (kofQ (14645958536022286/1000000000000000), kofQ (10410103424441612/1000000000000000),
     kofQ 0),
   (kofQ 30, kofQ 10, kofQ 0)]

/-- The last regression segment of `test_bezier_decomposition`, as exact
rationals. -/
def litLast : List (Vec3 K) :=
  [(kofQ 60, kofQ 20, kofQ 0),
   (kofQ (6633216513897267/100000000000000), kofQ (4320202388489432/100000000000000), kofQ 0),
   (kofQ (6954617236126121/100000000000000), kofQ (5037880459351478/100000000000000), kofQ 0),
   (kofQ 80, kofQ 70, kofQ 0)]

unseal Rat.add Rat.mul Rat.inv Rat.sub Rat.ofScientific

theorem qle_iff (a b : ℚ) : qle a b = true ↔ a ≤ b := by simp [qle]

theorem knotGet_eq_getElem (knots : List ℚ) (i : ℕ) (h : i < knots.length) :
    knotGet knots i = knots[i] := List.getD_eq_getElem knots 0 h

theorem knotGet_mono (knots : List ℚ) (hs : knots.Sorted (· ≤ ·)) {i j : ℕ}
    (hij : i ≤ j) (hj : j < knots.length) :
    knotGet knots i ≤ knotGet knots j := by
  rcases eq_or_lt_of_le hij with rfl | hlt
  · exact le_refl _
  · have hi : i < knots.length := lt_trans hlt hj
    rw [knotGet_eq_getElem knots i hi, knotGet_eq_getElem knots j hj]
    exact List.pairwise_iff_getElem.mp hs i j hi hj hlt

theorem basis_zero (u : ℚ) (i : ℕ) (knots : List ℚ) :
    bspline_basis qle u i 0 knots
      = if knotGet knots i ≤ u ∧ u < knotGet knots (i + 1) then 1 else 0 := by
  show (if (qle (knotGet knots i) u && !qle (knotGet knots (i + 1)) u) = true
      then (1 : ℚ) else 0) = _
  refine if_congr ?_ rfl rfl
  simp [qle, not_le]

theorem basis_succ (u : ℚ) (i q : ℕ) (knots : List ℚ) :
    bspline_basis qle u i (q + 1) knots
      = (u - knotGet knots i) / (knotGet knots (i + q + 1) - knotGet knots i)
          * bspline_basis qle u i q knots
        + (knotGet knots (i + q + 2) - u)
            / (knotGet knots (i + q + 2) - knotGet knots (i + 1))
          * bspline_basis qle u (i + 1) q knots := rfl

theorem basis_support (knots : List ℚ) (hs : knots.Sorted (· ≤ ·)) (u : ℚ) :
    ∀ (p i : ℕ), i + p + 1 < knots.length →
      (u < knotGet knots i ∨ knotGet knots (i + p + 1) ≤ u) →
      bspline_basis qle u i p knots = 0 := by
  intro p
  induction p with
  | zero =>
      intro i hr h
      rw [basis_zero, if_neg]
      rintro ⟨h1, h2⟩
      rcases h with h | h
      · exact absurd h1 (not_le.mpr h)
      · exact absurd h2 (not_lt.mpr h)
  | succ q ih =>
      intro i hr h
      have hidx : i + (q + 1) + 1 = i + q + 2 := by omega
      rw [hidx] at h
      rw [hidx] at hr
      rw [basis_succ]
      rcases h with h | h
      · have e1 : bspline_basis qle u i q knots = 0 :=
          ih i (by omega) (Or.inl h)
        have hii : knotGet knots i ≤ knotGet knots (i + 1) :=
          knotGet_mono knots hs (by omega) (by omega)
        have e2 : bspline_basis qle u (i + 1) q knots = 0 :=
          ih (i + 1) (by omega) (Or.inl (lt_of_lt_of_le h hii))
        rw [e1, e2]; ring
      · have hidx2 : i + 1 + q + 1 = i + q + 2 := by omega
        have e2 : bspline_basis qle u (i + 1) q knots = 0 := by
          refine ih (i + 1) (by omega) (Or.inr ?_)
          rw [hidx2]
          exact h
        have e1 : bspline_basis qle u i q knots = 0 := by
          refine ih i (by omega) (Or.inr ?_)
          exact le_trans (knotGet_mono knots hs (show i + q + 1 ≤ i + q + 2 by omega)
            (by omega)) h
        rw [e1, e2]; ring

theorem sum_shift_zero (f : ℕ → ℚ) (m : ℕ) :
    ∑ i in Finset.range m, f (i + 1)
      = ∑ i in Finset.range (m + 1), (if i = 0 then 0 else f i) := by
  induction m with
  | zero => simp
  | succ n ih =>
      rw [Finset.sum_range_succ, ih]
      conv_rhs => rw [Finset.sum_range_succ]
      rw [if_neg (Nat.succ_ne_zero n)]

theorem basis_combine (knots : List ℚ) (hs : knots.Sorted (· ≤ ·)) (u : ℚ) (q j : ℕ)
    (hr : j + q + 2 < knots.length) :
    (u - knotGet knots (j + 1))
        / (knotGet knots (j + 1 + q + 1) - knotGet knots (j + 1))
        * bspline_basis qle u (j + 1) q knots
      + (knotGet knots (j + q + 2) - u)
          / (knotGet knots (j + q + 2) - knotGet knots (j + 1))
          * bspline_basis qle u (j + 1) q knots
      = bspline_basis qle u (j + 1) q knots := by
  have hidx : j + 1 + q + 1 = j + q + 2 := by omega
  rw [hidx]
  by_cases hD : knotGet knots (j + q + 2) - knotGet knots (j + 1) = 0
  · have hEq : knotGet knots (j + q + 2) = knotGet knots (j + 1) := by linarith [sub_eq_zero.mp hD]
    have hB : bspline_basis qle u (j + 1) q knots = 0 := by
      rcases lt_or_le u (knotGet knots (j + 1)) with hu | hu
      · exact basis_support knots hs u q (j + 1) (by omega) (Or.inl hu)
      · refine basis_support knots hs u q (j + 1) (by omega) (Or.inr ?_)
        have : j + 1 + q + 1 = j + q + 2 := by omega
        rw [this, hEq]
        exact hu
    rw [hB]; ring
  · have hone : (u - knotGet knots (j + 1))
          / (knotGet knots (j + q + 2) - knotGet knots (j + 1))
        + (knotGet knots (j + q + 2) - u)
          / (knotGet knots (j + q + 2) - knotGet knots (j + 1)) = 1 := by
      rw [div_add_div_same, div_eq_one_iff_eq hD]
      ring
    calc (u - knotGet knots (j + 1))
            / (knotGet knots (j + q + 2) - knotGet knots (j + 1))
            * bspline_basis qle u (j + 1) q knots
          + (knotGet knots (j + q + 2) - u)
              / (knotGet knots (j + q + 2) - knotGet knots (j + 1))
              * bspline_basis qle u (j + 1) q knots
        = ((u - knotGet knots (j + 1))
              / (knotGet knots (j + q + 2) - knotGet knots (j + 1))
            + (knotGet knots (j + q + 2) - u)
              / (knotGet knots (j + q + 2) - knotGet knots (j + 1)))
            * bspline_basis qle u (j + 1) q knots := by ring
      _ = bspline_basis qle u (j + 1) q knots := by rw [hone, one_mul]

theorem basis_partition (knots : List ℚ) (hs : knots.Sorted (· ≤ ·)) (u : ℚ)
    (s : ℕ) (hu1 : knotGet knots s ≤ u) (hu2 : u < knotGet knots (s + 1)) :
    ∀ p m : ℕ, p ≤ s → s < m → m + p < knots.length →
      ∑ i in Finset.range m, bspline_basis qle u i p knots = 1 := by
  intro p
  induction p with
  | zero =>
      intro m hps hsm hr
      refine (Finset.sum_eq_single s ?_ ?_).trans ?_
      · intro i hi hne
        have him := Finset.mem_range.mp hi
        rw [basis_zero, if_neg]
        rintro ⟨h1, h2⟩
        rcases lt_or_gt_of_ne hne with hlt | hgt
        · have hle : knotGet knots (i + 1) ≤ knotGet knots s :=
            knotGet_mono knots hs (by omega) (by omega)
          linarith
        · have hle : knotGet knots (s + 1) ≤ knotGet knots i :=
            knotGet_mono knots hs (by omega) (by omega)
          linarith
      · intro hns
        exact absurd (Finset.mem_range.mpr hsm) hns
      · rw [basis_zero, if_pos ⟨hu1, hu2⟩]
  | succ q ih =>
      intro m hps hsm hr
      have hB0 : bspline_basis qle u 0 q knots = 0 := by
        refine basis_support knots hs u q 0 (by omega) (Or.inr ?_)
        have h1 : knotGet knots (0 + q + 1) ≤ knotGet knots s :=
          knotGet_mono knots hs (by omega) (by omega)
        linarith
      have hBm : bspline_basis qle u m q knots = 0 := by
        refine basis_support knots hs u q m (by omega) (Or.inl ?_)
        have h1 : knotGet knots (s + 1) ≤ knotGet knots m :=
          knotGet_mono knots hs (by omega) (by omega)
        linarith
      have hexp : ∑ i in Finset.range m, bspline_basis qle u i (q + 1) knots
          = (∑ i in Finset.range m,
              (u - knotGet knots i) / (knotGet knots (i + q + 1) - knotGet knots i)
                * bspline_basis qle u i q knots)
            + ∑ i in Finset.range m,
              (knotGet knots (i + q + 2) - u)
                / (knotGet knots (i + q + 2) - knotGet knots (i + 1))
                * bspline_basis qle u (i + 1) q knots := by
        rw [← Finset.sum_add_distrib]
        exact Finset.sum_congr rfl (fun i _ => basis_succ u i q knots)
      rw [hexp]
      have hfirst : (∑ i in Finset.range m,
            (u - knotGet knots i) / (knotGet knots (i + q + 1) - knotGet knots i)
              * bspline_basis qle u i q knots)
          = ∑ i in Finset.range (m + 1),
            (u - knotGet knots i) / (knotGet knots (i + q + 1) - knotGet knots i)
              * bspline_basis qle u i q knots := by
        rw [Finset.sum_range_succ, hBm, mul_zero, add_zero]
      have hsecond : (∑ i in Finset.range m,
            (knotGet knots (i + q + 2) - u)
              / (knotGet knots (i + q + 2) - knotGet knots (i + 1))
              * bspline_basis qle u (i + 1) q knots)
          = ∑ i in Finset.range (m + 1),
            (if i = 0 then 0 else
              (knotGet knots (i - 1 + q + 2) - u)
                / (knotGet knots (i - 1 + q + 2) - knotGet knots (i - 1 + 1))
                * bspline_basis qle u (i - 1 + 1) q knots) := by
        rw [← sum_shift_zero (fun i =>
          (knotGet knots (i - 1 + q + 2) - u)
            / (knotGet knots (i - 1 + q + 2) - knotGet knots (i - 1 + 1))
            * bspline_basis qle u (i - 1 + 1) q knots) m]
        refine Finset.sum_congr rfl (fun i _ => ?_)
        simp
      rw [hfirst, hsecond, ← Finset.sum_add_distrib]
      have hkey : ∀ i ∈ Finset.range (m + 1),
          ((u - knotGet knots i) / (knotGet knots (i + q + 1) - knotGet knots i)
              * bspline_basis qle u i q knots
            + if i = 0 then 0 else
                (knotGet knots (i - 1 + q + 2) - u)
                  / (knotGet knots (i - 1 + q + 2) - knotGet knots (i - 1 + 1))
                  * bspline_basis qle u (i - 1 + 1) q knots)
          = bspline_basis qle u i q knots := by
        intro i hi
        cases i with
        | zero => rw [if_pos rfl, hB0]; ring
        | succ j =>
            rw [if_neg (Nat.succ_ne_zero j)]
            have hrj : j + q + 2 < knots.length := by
              have hj : j + 1 ≤ m := by
                have := Finset.mem_range.mp hi
                omega
              omega
            simpa using basis_combine knots hs u q j hrj
      rw [Finset.sum_congr rfl hkey, Finset.sum_range_succ, hBm, add_zero]
      exact ih m (by omega) hsm (by omega)

theorem basis_nonneg (knots : List ℚ) (hs : knots.Sorted (· ≤ ·)) (u : ℚ) :
    ∀ p i : ℕ, i + p + 1 < knots.length → 0 ≤ bspline_basis qle u i p knots := by
  intro p
  induction p with
  | zero =>
      intro i hr
      rw [basis_zero]
      split_ifs <;> norm_num
  | succ q ih =>
      intro i hr
      have hidx : i + (q + 1) + 1 = i + q + 2 := by omega
      rw [hidx] at hr
      rw [basis_succ]
      have t1 : 0 ≤ (u - knotGet knots i)
          / (knotGet knots (i + q + 1) - knotGet knots i)
          * bspline_basis qle u i q knots := by
        by_cases hz : bspline_basis qle u i q knots = 0
        · rw [hz, mul_zero]
        · have hin : ¬(u < knotGet knots i ∨ knotGet knots (i + q + 1) ≤ u) :=
            fun hy => hz (basis_support knots hs u q i (by omega) hy)
          push_neg at hin
          obtain ⟨h1, h2⟩ := hin
          have hpos : 0 < bspline_basis qle u i q knots :=
            lt_of_le_of_ne (ih i (by omega)) (Ne.symm hz)
          have hden : 0 < knotGet knots (i + q + 1) - knotGet knots i := by linarith
          exact mul_nonneg (div_nonneg (by linarith) hden.le) hpos.le
      have t2 : 0 ≤ (knotGet knots (i + q + 2) - u)
          / (knotGet knots (i + q + 2) - knotGet knots (i + 1))
          * bspline_basis qle u (i + 1) q knots := by
        by_cases hz : bspline_basis qle u (i + 1) q knots = 0
        · rw [hz, mul_zero]
        · have hidx2 : i + 1 + q + 1 = i + q + 2 := by omega
          have hin : ¬(u < knotGet knots (i + 1) ∨ knotGet knots (i + q + 2) ≤ u) := by
            intro hy
            refine hz (basis_support knots hs u q (i + 1) (by omega) ?_)
            rw [hidx2]
            exact hy
          push_neg at hin
          obtain ⟨h1, h2⟩ := hin
          have hpos : 0 < bspline_basis qle u (i + 1) q knots :=
            lt_of_le_of_ne (ih (i + 1) (by omega)) (Ne.symm hz)
          have hden : 0 < knotGet knots (i + q + 2) - knotGet knots (i + 1) := by linarith
          exact mul_nonneg (div_nonneg (by linarith) hden.le) hpos.le
      linarith

theorem downSearch_spec (pred : ℕ → Bool) (lo : ℕ) :
    ∀ hi : ℕ, lo ≤ downSearch pred lo hi
      ∧ downSearch pred lo hi ≤ max lo hi
      ∧ (lo < downSearch pred lo hi → pred (downSearch pred lo hi) = true)
      ∧ ∀ k, downSearch pred lo hi < k → k ≤ hi → pred k = false := by
  intro hi
  induction hi with
  | zero =>
      refine ⟨le_refl lo, le_max_left lo 0, fun hlt => absurd hlt (lt_irrefl lo), ?_⟩
      intro k h1 h2
      omega
  | succ h ih =>
      have hdEq : downSearch pred lo (h + 1)
          = if h + 1 ≤ lo then lo
            else if pred (h + 1) then h + 1 else downSearch pred lo h := rfl
      rw [hdEq]
      split_ifs with hle hp
      · refine ⟨le_refl lo, le_max_left lo (h + 1),
          fun hlt => absurd hlt (lt_irrefl lo), ?_⟩
        intro k h1 h2
        omega
      · refine ⟨by omega, le_max_right lo (h + 1), fun _ => hp, ?_⟩
        intro k h1 h2
        omega
      · obtain ⟨i1, i2, i3, i4⟩ := ih
        refine ⟨i1, ?_, i3, ?_⟩
        · have : max lo h ≤ max lo (h + 1) := by omega
          omega
        · intro k h1 h2
          rcases Nat.lt_or_ge k (h + 1) with hk | hk
          · exact i4 k h1 (by omega)
          · have : k = h + 1 := by omega
            subst this
            simpa using hp

theorem find_span_spec (knots : List ℚ) (degree count : ℕ) (u : ℚ)
    (hdc : degree ≤ count - 1) (hc1 : 1 ≤ count)
    (hd : knotGet knots degree ≤ u) (hmax : u < knotGet knots count) :
    degree ≤ find_span qle knots degree count u
    ∧ find_span qle knots degree count u ≤ count - 1
    ∧ knotGet knots (find_span qle knots degree count u) ≤ u
    ∧ u < knotGet knots (find_span qle knots degree count u + 1) := by
  have hfalse : qle (knotGet knots count) u = false := by
    simp [qle]
    exact hmax
  rw [find_span, hfalse]
  simp only [Bool.false_eq_true, if_false]
  obtain ⟨i1, i2, i3, i4⟩ := downSearch_spec (fun j => qle (knotGet knots j) u)
    degree (count - 1)
  refine ⟨i1, by omega, ?_, ?_⟩
  · rcases Nat.lt_or_ge degree (downSearch (fun j => qle (knotGet knots j) u)
        degree (count - 1)) with hlt | hge
    · exact (qle_iff _ _).mp (i3 hlt)
    · have : downSearch (fun j => qle (knotGet knots j) u) degree (count - 1)
          = degree := by omega
      rw [this]
      exact hd
  · rcases Nat.lt_or_ge (count - 1)
        (downSearch (fun j => qle (knotGet knots j) u) degree (count - 1) + 1)
      with hlt | hge
    · have : downSearch (fun j => qle (knotGet knots j) u) degree (count - 1) + 1
          = count := by omega
      rw [this]
      exact hmax
    · have hf := i4 (downSearch (fun j => qle (knotGet knots j) u) degree
        (count - 1) + 1) (by omega) (by omega)
      have := (Bool.not_eq_true _).mpr hf
      rw [qle] at this
      simpa [not_le] using this

theorem basisRowStep_nil (knots : List ℚ) (u : ℚ) (span j : ℕ) (saved : ℚ) (r : ℕ) :
    basisRowStep knots u span j [] saved r = [saved] := rfl

theorem basisRowStep_cons (knots : List ℚ) (u : ℚ) (span j : ℕ) (n : ℚ)
    (rest : List ℚ) (saved : ℚ) (r : ℕ) :
    basisRowStep knots u span j (n :: rest) saved r
      = (saved + (knotGet knots (span + r + 1) - u)
            * (n / (knotGet knots (span + r + 1) - knotGet knots (span + r + 1 - j))))
        :: basisRowStep knots u span j rest
            ((u - knotGet knots (span + 1 - j + r))
              * (n / (knotGet knots (span + r + 1) - knotGet knots (span + r + 1 - j))))
            (r + 1) := rfl

theorem rowStep_correct (knots : List ℚ) (hs : knots.Sorted (· ≤ ·)) (u : ℚ)
    (j w : ℕ) (hlen : j + 2 * w + 3 < knots.length)
    (hu2 : u < knotGet knots (j + w + 2)) :
    ∀ n r : ℕ, r + n = w + 1 →
      basisRowStep knots u (j + w + 1) (w + 1)
          ((List.range n).map
            (fun k => bspline_basis qle u (j + r + k + 1) w knots))
          ((u - knotGet knots (j + r))
            / (knotGet knots (j + r + w + 1) - knotGet knots (j + r))
            * bspline_basis qle u (j + r) w knots)
          r
        = (List.range (n + 1)).map
            (fun k => bspline_basis qle u (j + r + k) (w + 1) knots) := by
  intro n
  induction n with
  | zero =>
      intro r hr
      have hrw : r = w + 1 := by omega
      subst hrw
      rw [List.range_zero, List.map_nil, basisRowStep_nil]
      show _ = [bspline_basis qle u (j + (w + 1) + 0) (w + 1) knots]
      rw [show j + (w + 1) + 0 = j + (w + 1) from by omega]
      congr 1
      rw [basis_succ u (j + (w + 1)) w knots]
      have hz : bspline_basis qle u (j + (w + 1) + 1) w knots = 0 := by
        refine basis_support knots hs u w (j + (w + 1) + 1) (by omega) (Or.inl ?_)
        exact lt_of_lt_of_le hu2 (knotGet_mono knots hs (by omega) (by omega))
      rw [hz, mul_zero, add_zero]
  | succ n ih =>
      intro r hr
      have hlist : (List.range (n + 1)).map
            (fun k => bspline_basis qle u (j + r + k + 1) w knots)
          = bspline_basis qle u (j + r + 1) w knots
            :: (List.range n).map
                (fun k => bspline_basis qle u (j + (r + 1) + k + 1) w knots) := by
        rw [List.range_succ_eq_map, List.map_cons, List.map_map]
        congr 1
        apply List.map_congr_left
        intro k _
        show bspline_basis qle u (j + r + (k + 1) + 1) w knots
            = bspline_basis qle u (j + (r + 1) + k + 1) w knots
        exact congrArg (fun m => bspline_basis qle u m w knots) (by omega)
      rw [hlist, basisRowStep_cons]
      have e1 : j + w + 1 + r + 1 = j + r + w + 2 := by omega
      have e2 : j + r + w + 2 - (w + 1) = j + r + 1 := by omega
      have e3 : j + w + 1 + 1 - (w + 1) + r = j + r + 1 := by omega
      rw [e1, e2, e3]
      rw [List.range_succ_eq_map, List.map_cons, List.map_map]
      congr 1
      · show _ = bspline_basis qle u (j + r + 0) (w + 1) knots
        rw [show j + r + 0 = j + r from by omega]
        rw [basis_succ u (j + r) w knots]
        ring
      · have hmapR : (List.range (n + 1)).map
              ((fun k => bspline_basis qle u (j + r + k) (w + 1) knots) ∘ Nat.succ)
            = (List.range (n + 1)).map
              (fun k => bspline_basis qle u (j + (r + 1) + k) (w + 1) knots) := by
          apply List.map_congr_left
          intro k _
          show bspline_basis qle u (j + r + (k + 1)) (w + 1) knots
              = bspline_basis qle u (j + (r + 1) + k) (w + 1) knots
          exact congrArg (fun m => bspline_basis qle u m (w + 1) knots) (by omega)
        rw [hmapR]
        have hsaved : (u - knotGet knots (j + r + 1))
              * (bspline_basis qle u (j + r + 1) w knots
                / (knotGet knots (j + r + w + 2) - knotGet knots (j + r + 1)))
            = (u - knotGet knots (j + (r + 1)))
              / (knotGet knots (j + (r + 1) + w + 1) - knotGet knots (j + (r + 1)))
              * bspline_basis qle u (j + (r + 1)) w knots := by
          rw [show j + (r + 1) = j + r + 1 from by omega]
          rw [show j + r + 1 + w + 1 = j + r + w + 2 from by omega]
          ring
        rw [hsaved]
        exact ih (r + 1) (by omega)

theorem basisRow_correct (knots : List ℚ) (hs : knots.Sorted (· ≤ ·)) (u : ℚ)
    (s : ℕ) (hu1 : knotGet knots s ≤ u) (hu2 : u < knotGet knots (s + 1)) :
    ∀ p : ℕ, p ≤ s → s + p + 1 < knots.length →
      basisRow knots u s p
        = (List.range (p + 1)).map
            (fun k => bspline_basis qle u (s - p + k) p knots) := by
  intro p
  induction p with
  | zero =>
      intro hps hlen
      show [1] = _
      rw [List.range_succ, List.range_zero, List.nil_append, List.map_cons, List.map_nil]
      rw [show s - 0 + 0 = s from by omega]
      congr 1
      rw [basis_zero, if_pos ⟨hu1, hu2⟩]
  | succ p ih =>
      intro hps hlen
      have hfold : basisRow knots u s (p + 1)
          = basisRowStep knots u s (p + 1) (basisRow knots u s p) 0 0 := by
        show (List.range (p + 1)).foldl
            (fun N j => basisRowStep knots u s (j + 1) N 0 0) [1] = _
        rw [List.range_succ, List.foldl_append]
        rfl
      rw [hfold, ih (by omega) (by omega)]
      have happ := rowStep_correct knots hs u (s - (p + 1)) p (by omega)
        (by rw [show s - (p + 1) + p + 2 = s + 1 from by omega]; exact hu2)
        (p + 1) 0 (by omega)
      rw [show s - (p + 1) + p + 1 = s from by omega] at happ
      have hin : (List.range (p + 1)).map
            (fun k => bspline_basis qle u (s - (p + 1) + 0 + k + 1) p knots)
          = (List.range (p + 1)).map
            (fun k => bspline_basis qle u (s - p + k) p knots) := by
        apply List.map_congr_left
        intro k _
        exact congrArg (fun m => bspline_basis qle u m p knots) (by omega)
      rw [hin] at happ
      have hB0 : bspline_basis qle u (s - (p + 1) + 0) p knots = 0 := by
        refine basis_support knots hs u p (s - (p + 1) + 0) (by omega) (Or.inr ?_)
        have e : s - (p + 1) + 0 + p + 1 = s := by omega
        rw [e]
        exact hu1
      have hsv : (u - knotGet knots (s - (p + 1) + 0))
            / (knotGet knots (s - (p + 1) + 0 + p + 1) - knotGet knots (s - (p + 1) + 0))
            * bspline_basis qle u (s - (p + 1) + 0) p knots = 0 := by
        rw [hB0, mul_zero]
      rw [hsv] at happ
      have hout : (List.range (p + 1 + 1)).map
            (fun k => bspline_basis qle u (s - (p + 1) + 0 + k) (p + 1) knots)
          = (List.range (p + 1 + 1)).map
            (fun k => bspline_basis qle u (s - (p + 1) + k) (p + 1) knots) := by
        apply List.map_congr_left
        intro k _
        exact congrArg (fun m => bspline_basis qle u m (p + 1) knots) (by omega)
      rw [hout] at happ
      exact happ

theorem rowStepEnd_correct (knots : List ℚ) (u : ℚ) (s w : ℕ) (hws : w + 1 ≤ s)
    (hlt : knotGet knots s < u)
    (hend : ∀ r', 1 ≤ r' → r' ≤ w + 1 → knotGet knots (s + r') = u) :
    ∀ n r : ℕ, r + n = w →
      basisRowStep knots u s (w + 1) (List.replicate n 0 ++ [1]) 0 r
        = List.replicate (n + 1) 0 ++ [1] := by
  intro n
  induction n with
  | zero =>
      intro r hr
      have hrw : w = r := by omega
      subst hrw
      rw [List.replicate_zero, List.nil_append, basisRowStep_cons, basisRowStep_nil]
      have e1 : s + w + 1 - (w + 1) = s := by omega
      have e2 : s + 1 - (w + 1) + w = s := by omega
      rw [e1, e2]
      have hku : knotGet knots (s + w + 1) = u := by
        have := hend (w + 1) (by omega) (by omega)
        rw [show s + (w + 1) = s + w + 1 from by omega] at this
        exact this
      rw [hku]
      have hne : u - knotGet knots s ≠ 0 := sub_ne_zero.mpr (ne_of_gt hlt)
      have hsv : (u - knotGet knots s) * (1 / (u - knotGet knots s)) = 1 := by
        rw [mul_one_div, div_self hne]
      rw [hsv, sub_self, zero_mul, add_zero]
      rfl
  | succ n ih =>
      intro r hr
      rw [List.replicate_succ, List.cons_append, basisRowStep_cons]
      have hk1 : knotGet knots (s + r + 1) = u := by
        have := hend (r + 1) (by omega) (by omega)
        rw [show s + (r + 1) = s + r + 1 from by omega] at this
        exact this
      rw [hk1]
      simp only [zero_div, mul_zero, add_zero, sub_self, zero_mul]
      rw [ih (r + 1) (by omega)]
      rfl

theorem basisRowEnd_correct (knots : List ℚ) (u : ℚ) (s P : ℕ) (hws : P ≤ s)
    (hlt : knotGet knots s < u)
    (hend : ∀ r', 1 ≤ r' → r' ≤ P + 1 → knotGet knots (s + r') = u) :
    ∀ p : ℕ, p ≤ P → basisRow knots u s p = List.replicate p 0 ++ [1] := by
  intro p
  induction p with
  | zero => intro _; rfl
  | succ p ih =>
      intro hpP
      have hfold : basisRow knots u s (p + 1)
          = basisRowStep knots u s (p + 1) (basisRow knots u s p) 0 0 := by
        show (List.range (p + 1)).foldl
            (fun N j => basisRowStep knots u s (j + 1) N 0 0) [1] = _
        rw [List.range_succ, List.foldl_append]
        rfl
      rw [hfold, ih (by omega)]
      have := rowStepEnd_correct knots u s p (by omega) hlt
        (fun r' h1 h2 => hend r' h1 (by omega)) p 0 (by omega)
      exact this

theorem getLastD_knotGet (knots : List ℚ) :
    knots.getLastD 0 = knotGet knots (knots.length - 1) := by
  rw [List.getLastD_eq_getLast?, List.getLast?_eq_getElem?, knotGet,
    List.getD_eq_getElem?_getD]

/-- The iterative triangular-table basis vector agrees everywhere with the recursive
Cox–de Boor reference vector, for any non-decreasing end-clamped knot vector and any
parameter in the curve domain (shared helper behind claim C5). -/
theorem basis_vector_eq_ref (knots : List ℚ) (degree count : ℕ) (u : ℚ)
    (hs : knots.Sorted (· ≤ ·))
    (hlen : knots.length = count + degree + 1)
    (hco : degree + 1 ≤ count)
    (hcl1 : knotGet knots (count - 1) < knotGet knots count)
    (hcl2 : knotGet knots (count + degree) = knotGet knots count)
    (hdom1 : knotGet knots degree ≤ u) (hdom2 : u ≤ knotGet knots count) :
    basis_vector qle knots (degree + 1) count u
      = bspline_basis_vector qle u count degree knots := by
  have hlast : knots.getLastD 0 = knotGet knots (count + degree) := by
    rw [getLastD_knotGet, hlen]
    norm_num
  have hp : degree + 1 - 1 = degree := by omega
  rcases eq_or_lt_of_le hdom2 with heq | hlt
  · -- endpoint case: u equals the domain maximum
    have huL : u = knots.getLastD 0 := by rw [hlast, hcl2, heq]
    have hsp : find_span qle knots degree count u = count - 1 := by
      rw [find_span, if_pos (by rw [qle_iff]; exact le_of_eq heq.symm)]
    have hend : ∀ r', 1 ≤ r' → r' ≤ degree + 1
        → knotGet knots (count - 1 + r') = u := by
      intro r' hr1 hr2
      have hle1 : knotGet knots count ≤ knotGet knots (count - 1 + r') :=
        knotGet_mono knots hs (by omega) (by omega)
      have hle2 : knotGet knots (count - 1 + r') ≤ knotGet knots (count + degree) :=
        knotGet_mono knots hs (by omega) (by omega)
      rw [hcl2] at hle2
      rw [heq]
      exact le_antisymm hle2 hle1
    have hrow := basisRowEnd_correct knots u (count - 1) degree (by omega)
      (by rw [← heq] at hcl1; exact hcl1) hend degree (le_refl degree)
    show (List.range count).map _ = _
    rw [bspline_basis_vector, if_pos huL]
    have hBzero : ∀ i, i < count → bspline_basis qle u i degree knots = 0 := by
      intro i hi
      refine basis_support knots hs u degree i (by omega) (Or.inr ?_)
      have hmn : knotGet knots (i + degree + 1) ≤ knotGet knots (count + degree) :=
        knotGet_mono knots hs (by omega) (by omega)
      rw [hcl2, ← heq] at hmn
      exact hmn
    apply List.ext_getElem
    · simp
    · intro i h1 h2
      have hic : i < count := by simpa using h1
      rw [List.getElem_map, List.getElem_range, hp, hsp, hrow, List.getElem_set]
      by_cases hieq : count - 1 = i
      · rw [if_pos hieq]
        have hiw : count - 1 - degree ≤ i ∧ i ≤ count - 1 := by omega
        rw [if_pos hiw]
        have hidx : i - (count - 1 - degree) = degree := by omega
        rw [hidx]
        rw [List.getD_eq_getElem?_getD, List.getElem?_append_right (by simp)]
        simp
      · rw [if_neg hieq]
        rw [List.getElem_map, List.getElem_range, hBzero i hic]
        by_cases hwin : count - 1 - degree ≤ i ∧ i ≤ count - 1
        · rw [if_pos hwin]
          have hidx : i - (count - 1 - degree) < degree := by omega
          rw [List.getD_eq_getElem?_getD, List.getElem?_append_left (by simpa using hidx)]
          simp [hidx]
        · rw [if_neg hwin]
  · -- interior case: u strictly below the domain maximum
    have huL : ¬(u = knots.getLastD 0) := by
      rw [hlast, hcl2]
      exact ne_of_lt hlt
    obtain ⟨hsp1, hsp2, hsp3, hsp4⟩ := find_span_spec knots degree count u
      (by omega) (by omega) hdom1 hlt
    have hrow := basisRow_correct knots hs u (find_span qle knots degree count u)
      hsp3 hsp4 degree hsp1 (by omega)
    show (List.range count).map _ = _
    rw [bspline_basis_vector, if_neg huL]
    apply List.ext_getElem
    · simp
    · intro i h1 h2
      have hic : i < count := by simpa using h1
      rw [List.getElem_map, List.getElem_range, List.getElem_map, List.getElem_range]
      rw [hp, hrow]
      by_cases hwin : find_span qle knots degree count u - degree ≤ i
          ∧ i ≤ find_span qle knots degree count u
      · rw [if_pos hwin]
        have hidx : i - (find_span qle knots degree count u - degree) < degree + 1 := by
          omega
        rw [List.getD_eq_getElem?_getD, List.getElem?_map]
        rw [List.getElem?_range hidx]
        show bspline_basis qle u (find_span qle knots degree count u - degree
            + (i - (find_span qle knots degree count u - degree))) degree knots
          = bspline_basis qle u i degree knots
        exact congrArg (fun m => bspline_basis qle u m degree knots) (by omega)
      · rw [if_neg hwin]
        rcases Nat.lt_or_ge i (find_span qle knots degree count u - degree) with hlo | hhi
        · refine (basis_support knots hs u degree i (by omega) (Or.inr ?_)).symm
          refine le_trans (knotGet_mono knots hs (show i + degree + 1
            ≤ find_span qle knots degree count u from by omega) (by omega)) hsp3
        · have hgt : find_span qle knots degree count u < i := by omega
          refine (basis_support knots hs u degree i (by omega) (Or.inl ?_)).symm
          refine lt_of_lt_of_le hsp4 (knotGet_mono knots hs (by omega) (by omega))

/-- C5: for every non-decreasing end-clamped knot vector, order and parameter `u` in
the valid domain — the domain endpoints included — the iterative triangular-table
evaluator `basis_vector(u)` returns a vector of the same length as, and
component-wise equal to, the independent recursive Cox–de Boor reference
implementation `bspline_basis_vector(u, count, degree, knots)` (exact agreement, so
in particular within any floating tolerance). -/
theorem C5_basis_vector_matches_reference (knots : List ℚ) (degree count : ℕ)
    (u : ℚ) (hs : knots.Sorted (· ≤ ·))
    (hlen : knots.length = count + degree + 1)
    (hco : degree + 1 ≤ count)
    (hcl1 : knotGet knots (count - 1) < knotGet knots count)
    (hcl2 : knotGet knots (count + degree) = knotGet knots count)
    (hdom1 : knotGet knots degree ≤ u) (hdom2 : u ≤ knotGet knots count) :
    (basis_vector qle knots (degree + 1) count u).length
        = (bspline_basis_vector qle u count degree knots).length
    ∧ ∀ i : ℕ, (basis_vector qle knots (degree + 1) count u).getD i 0
        = (bspline_basis_vector qle u count degree knots).getD i 0 := by
  have h := basis_vector_eq_ref knots degree count u hs hlen hco hcl1 hcl2 hdom1 hdom2
  exact ⟨by rw [h], fun i => by rw [h]⟩

/-- Witness for C5 at the test's knot vector `open_uniform_knot_vector(10, order 4)`
and `u = 5/2` (`test_bspline_basis_vector`). -/
theorem C5_basis_vector_matches_reference_witness :
    ((open_uniform_knot_vector 10 4 : List ℚ).Sorted (· ≤ ·)
      ∧ (open_uniform_knot_vector 10 4 : List ℚ).length = 10 + 3 + 1
      ∧ 3 + 1 ≤ 10
      ∧ knotGet (open_uniform_knot_vector 10 4 : List ℚ) (10 - 1)
          < knotGet (open_uniform_knot_vector 10 4 : List ℚ) 10
      ∧ knotGet (open_uniform_knot_vector 10 4 : List ℚ) (10 + 3)
          = knotGet (open_uniform_knot_vector 10 4 : List ℚ) 10
      ∧ knotGet (open_uniform_knot_vector 10 4 : List ℚ) 3 ≤ (5/2 : ℚ)
      ∧ (5/2 : ℚ) ≤ knotGet (open_uniform_knot_vector 10 4 : List ℚ) 10)
    ∧ (basis_vector qle (open_uniform_knot_vector 10 4 : List ℚ) (3 + 1) 10 (5/2)).length
        = (bspline_basis_vector qle (5/2) 10 3
            (open_uniform_knot_vector 10 4 : List ℚ)).length :=
  ⟨⟨by decide, by decide, by decide, by decide, by decide, by decide, by decide⟩,
    (C5_basis_vector_matches_reference (open_uniform_knot_vector 10 4 : List ℚ) 3 10
      (5/2) (by decide) (by decide) (by decide) (by decide) (by decide) (by decide)
      (by decide)).1⟩

theorem getD_map_range (f : ℕ → ℚ) (n i : ℕ) (h : i < n) :
    ((List.range n).map f).getD i 0 = f i := by
  rw [List.getD_eq_getElem?_getD, List.getElem?_map, List.getElem?_range h]
  rfl

theorem getD_set_map_range (f : ℕ → ℚ) (n j : ℕ) (a : ℚ) (i : ℕ) (h : i < n) :
    ((((List.range n).map f).set j a)).getD i 0 = if j = i then a else f i := by
  have hl : i < (((List.range n).map f).set j a).length := by simpa using h
  rw [List.getD_eq_getElem _ _ hl, List.getElem_set]
  by_cases hj : j = i
  · rw [if_pos hj, if_pos hj]
  · rw [if_neg hj, if_neg hj, List.getElem_map, List.getElem_range]

theorem rsum_eq_sum (n : ℕ) (f : ℕ → ℚ) :
    rsum n f = ∑ i in Finset.range n, f i := by
  induction n with
  | zero => simp [rsum]
  | succ n ih =>
      rw [Finset.sum_range_succ, ← ih]
      simp [rsum, List.range_succ]

theorem sum_fst (l : List (Vec3 ℚ)) : l.sum.1 = (l.map (fun v => v.1)).sum := by
  induction l with
  | nil => rfl
  | cons a t ih => rw [List.sum_cons, List.map_cons, List.sum_cons, ← ih]; rfl

theorem sum_snd₁ (l : List (Vec3 ℚ)) : l.sum.2.1 = (l.map (fun v => v.2.1)).sum := by
  induction l with
  | nil => rfl
  | cons a t ih => rw [List.sum_cons, List.map_cons, List.sum_cons, ← ih]; rfl

theorem sum_snd₂ (l : List (Vec3 ℚ)) : l.sum.2.2 = (l.map (fun v => v.2.2)).sum := by
  induction l with
  | nil => rfl
  | cons a t ih => rw [List.sum_cons, List.map_cons, List.sum_cons, ← ih]; rfl

theorem rsum_fst (n : ℕ) (g : ℕ → Vec3 ℚ) :
    (rsum n g).1 = rsum n (fun i => (g i).1) := by
  show ((List.range n).map g).sum.1 = _
  rw [sum_fst, List.map_map]
  rfl

theorem rsum_snd₁ (n : ℕ) (g : ℕ → Vec3 ℚ) :
    (rsum n g).2.1 = rsum n (fun i => (g i).2.1) := by
  show ((List.range n).map g).sum.2.1 = _
  rw [sum_snd₁, List.map_map]
  rfl

theorem rsum_snd₂ (n : ℕ) (g : ℕ → Vec3 ℚ) :
    (rsum n g).2.2 = rsum n (fun i => (g i).2.2) := by
  show ((List.range n).map g).sum.2.2 = _
  rw [sum_snd₂, List.map_map]
  rfl

/-- The full basis vector sums to 1 over the valid domain (partition of unity). -/
theorem basisVector_sum_one (knots : List ℚ) (degree count : ℕ) (u : ℚ)
    (hs : knots.Sorted (· ≤ ·))
    (hlen : knots.length = count + degree + 1)
    (hco : degree + 1 ≤ count)
    (hcl1 : knotGet knots (count - 1) < knotGet knots count)
    (hcl2 : knotGet knots (count + degree) = knotGet knots count)
    (hdom1 : knotGet knots degree ≤ u) (hdom2 : u ≤ knotGet knots count) :
    ∑ i in Finset.range count,
      (basis_vector qle knots (degree + 1) count u).getD i 0 = 1 := by
  rw [basis_vector_eq_ref knots degree count u hs hlen hco hcl1 hcl2 hdom1 hdom2]
  have hlast : knots.getLastD 0 = knotGet knots (count + degree) := by
    rw [getLastD_knotGet, hlen]
    norm_num
  rcases eq_or_lt_of_le hdom2 with heq | hlt
  · have huL : u = knots.getLastD 0 := by rw [hlast, hcl2, heq]
    rw [bspline_basis_vector, if_pos huL]
    have hcongr : ∀ i ∈ Finset.range count,
        ((((List.range count).map
            (fun i => bspline_basis qle u i degree knots)).set (count - 1) 1)).getD i 0
          = if count - 1 = i then 1 else (0 : ℚ) := by
      intro i hi
      have hic : i < count := Finset.mem_range.mp hi
      rw [getD_set_map_range _ _ _ _ _ hic]
      by_cases hj : count - 1 = i
      · rw [if_pos hj, if_pos hj]
      · rw [if_neg hj, if_neg hj]
        refine basis_support knots hs u degree i (by omega) (Or.inr ?_)
        have hmn : knotGet knots (i + degree + 1) ≤ knotGet knots (count + degree) :=
          knotGet_mono knots hs (by omega) (by omega)
        rw [hcl2, ← heq] at hmn
        exact hmn
    rw [Finset.sum_congr rfl hcongr]
    rw [Finset.sum_ite_eq (Finset.range count) (count - 1) (fun _ => (1 : ℚ))]
    rw [if_pos (Finset.mem_range.mpr (by omega))]
  · have huL : ¬(u = knots.getLastD 0) := by
      rw [hlast, hcl2]
      exact ne_of_lt hlt
    rw [bspline_basis_vector, if_neg huL]
    obtain ⟨hsp1, hsp2, hsp3, hsp4⟩ := find_span_spec knots degree count u
      (by omega) (by omega) hdom1 hlt
    have hcongr : ∀ i ∈ Finset.range count,
        (((List.range count).map
            (fun i => bspline_basis qle u i degree knots))).getD i 0
          = bspline_basis qle u i degree knots := by
      intro i hi
      exact getD_map_range _ _ _ (Finset.mem_range.mp hi)
    rw [Finset.sum_congr rfl hcongr]
    exact basis_partition knots hs u (find_span qle knots degree count u) hsp3 hsp4
      degree count hsp1 (by omega) (by omega)

/-- Every entry of the full basis vector is nonnegative over the valid domain. -/
theorem basisVector_nonneg (knots : List ℚ) (degree count : ℕ) (u : ℚ)
    (hs : knots.Sorted (· ≤ ·))
    (hlen : knots.length = count + degree + 1)
    (hco : degree + 1 ≤ count)
    (hcl1 : knotGet knots (count - 1) < knotGet knots count)
    (hcl2 : knotGet knots (count + degree) = knotGet knots count)
    (hdom1 : knotGet knots degree ≤ u) (hdom2 : u ≤ knotGet knots count) :
    ∀ i : ℕ, 0 ≤ (basis_vector qle knots (degree + 1) count u).getD i 0 := by
  intro i
  rw [basis_vector_eq_ref knots degree count u hs hlen hco hcl1 hcl2 hdom1 hdom2]
  rcases Nat.lt_or_ge i count with hic | hic
  · rw [bspline_basis_vector]
    by_cases huL : u = knots.getLastD 0
    · rw [if_pos huL, getD_set_map_range _ _ _ _ _ hic]
      by_cases hj : count - 1 = i
      · rw [if_pos hj]; norm_num
      · rw [if_neg hj]
        exact basis_nonneg knots hs u degree i (by omega)
    · rw [if_neg huL, getD_map_range _ _ _ hic]
      exact basis_nonneg knots hs u degree i (by omega)
  · have hlen2 : (bspline_basis_vector qle u count degree knots).length ≤ i := by
      rw [bspline_basis_vector]
      by_cases huL : u = knots.getLastD 0
      · rw [if_pos huL]; simpa using hic
      · rw [if_neg huL]; simpa using hic
    rw [List.getD_eq_default _ _ hlen2]

theorem smul_fst (c : ℚ) (v : Vec3 ℚ) : (c • v).1 = c * v.1 := rfl

theorem smul_snd₁ (c : ℚ) (v : Vec3 ℚ) : (c • v).2.1 = c * v.2.1 := rfl

theorem smul_snd₂ (c : ℚ) (v : Vec3 ℚ) : (c • v).2.2 = c * v.2.2 := rfl

theorem apply_fst (M : AffineMap3 ℚ) (p : Vec3 ℚ) :
    (M.apply p).1 = dot3 M.rx p + M.v.1 := rfl

theorem apply_snd₁ (M : AffineMap3 ℚ) (p : Vec3 ℚ) :
    (M.apply p).2.1 = dot3 M.ry p + M.v.2.1 := rfl

theorem apply_snd₂ (M : AffineMap3 ℚ) (p : Vec3 ℚ) :
    (M.apply p).2.2 = dot3 M.rz p + M.v.2.2 := rfl

theorem getD_map_apply (M : AffineMap3 ℚ) (l : List (Vec3 ℚ)) (i : ℕ)
    (h : i < l.length) :
    (l.map M.apply).getD i 0 = M.apply (l.getD i 0) := by
  rw [List.getD_eq_getElem _ _ (by simpa using h), List.getElem_map,
    List.getD_eq_getElem _ _ h]

theorem affine_row_sum (n : ℕ) (N : ℕ → ℚ) (P : ℕ → Vec3 ℚ) (row : Vec3 ℚ) (v : ℚ)
    (hsum : ∑ i in Finset.range n, N i = 1) :
    ∑ i in Finset.range n, N i * (dot3 row (P i) + v)
      = row.1 * ∑ i in Finset.range n, N i * (P i).1
        + row.2.1 * ∑ i in Finset.range n, N i * (P i).2.1
        + row.2.2 * ∑ i in Finset.range n, N i * (P i).2.2
        + v := by
  have expand : ∀ i ∈ Finset.range n, N i * (dot3 row (P i) + v)
      = row.1 * (N i * (P i).1) + row.2.1 * (N i * (P i).2.1)
        + row.2.2 * (N i * (P i).2.2) + N i * v := by
    intro i _
    simp only [dot3]
    ring
  rw [Finset.sum_congr rfl expand, Finset.sum_add_distrib, Finset.sum_add_distrib,
    Finset.sum_add_distrib, ← Finset.mul_sum, ← Finset.mul_sum, ← Finset.mul_sum,
    ← Finset.sum_mul, hsum, one_mul]

theorem affine_row_sum_scaled (n : ℕ) (C : ℕ → ℚ) (P : ℕ → Vec3 ℚ) (row : Vec3 ℚ)
    (v d : ℚ) (hd : d ≠ 0) (hsum : ∑ i in Finset.range n, C i = d) :
    d⁻¹ * ∑ i in Finset.range n, C i * (dot3 row (P i) + v)
      = row.1 * (d⁻¹ * ∑ i in Finset.range n, C i * (P i).1)
        + row.2.1 * (d⁻¹ * ∑ i in Finset.range n, C i * (P i).2.1)
        + row.2.2 * (d⁻¹ * ∑ i in Finset.range n, C i * (P i).2.2)
        + v := by
  have expand : ∀ i ∈ Finset.range n, C i * (dot3 row (P i) + v)
      = row.1 * (C i * (P i).1) + row.2.1 * (C i * (P i).2.1)
        + row.2.2 * (C i * (P i).2.2) + C i * v := by
    intro i _
    simp only [dot3]
    ring
  rw [Finset.sum_congr rfl expand, Finset.sum_add_distrib, Finset.sum_add_distrib,
    Finset.sum_add_distrib, ← Finset.mul_sum, ← Finset.mul_sum, ← Finset.mul_sum,
    ← Finset.sum_mul, hsum]
  have step : d⁻¹ * (row.1 * ∑ i in Finset.range n, C i * (P i).1
        + row.2.1 * ∑ i in Finset.range n, C i * (P i).2.1
        + row.2.2 * ∑ i in Finset.range n, C i * (P i).2.2
        + d * v)
      = row.1 * (d⁻¹ * ∑ i in Finset.range n, C i * (P i).1)
        + row.2.1 * (d⁻¹ * ∑ i in Finset.range n, C i * (P i).2.1)
        + row.2.2 * (d⁻¹ * ∑ i in Finset.range n, C i * (P i).2.2)
        + (d⁻¹ * d) * v := by ring
  rw [step, inv_mul_cancel₀ hd, one_mul]

/-- Transform and evaluation commute (shared helper behind claim C9): applying an
affine map to every control point and then evaluating equals evaluating first and
mapping the result, for non-rational curves and for rational curves with positive
weights. -/
theorem transform_point_commute (M : AffineMap3 ℚ) (cps : List (Vec3 ℚ))
    (knots weights : List ℚ) (degree : ℕ) (u : ℚ)
    (hs : knots.Sorted (· ≤ ·))
    (hlen : knots.length = cps.length + degree + 1)
    (hco : degree + 1 ≤ cps.length)
    (hcl1 : knotGet knots (cps.length - 1) < knotGet knots cps.length)
    (hcl2 : knotGet knots (cps.length + degree) = knotGet knots cps.length)
    (hdom1 : knotGet knots degree ≤ u) (hdom2 : u ≤ knotGet knots cps.length)
    (hw : weights = [] ∨ (weights.length = cps.length ∧ ∀ w ∈ weights, 0 < w)) :
    (BSpline.transform M ⟨cps, degree + 1, knots, weights⟩).point qle u
      = M.apply ((⟨cps, degree + 1, knots, weights⟩ : BSpline ℚ).point qle u) := by
  have hsumN := basisVector_sum_one knots degree cps.length u hs hlen hco hcl1 hcl2
    hdom1 hdom2
  have hnn := basisVector_nonneg knots degree cps.length u hs hlen hco hcl1 hcl2
    hdom1 hdom2
  rcases hw with hw | ⟨hwlen, hwpos⟩
  · subst hw
    show (⟨cps.map M.apply, degree + 1, knots, []⟩ : BSpline ℚ).point qle u = _
    simp only [BSpline.point, if_true]
    rw [List.length_map]
    have hT : ∀ c : Vec3 ℚ → ℚ, ∀ i ∈ Finset.range cps.length,
        (basis_vector qle knots (degree + 1) cps.length u).getD i 0
            * c ((cps.map M.apply).getD i 0)
          = (basis_vector qle knots (degree + 1) cps.length u).getD i 0
            * c (M.apply (cps.getD i 0)) := by
      intro c i hi
      rw [getD_map_apply M cps i (Finset.mem_range.mp hi)]
    refine Prod.ext ?_ (Prod.ext ?_ ?_)
    · rw [rsum_fst, apply_fst]
      simp only [smul_fst, dot3]
      rw [rsum_fst, rsum_snd₁, rsum_snd₂]
      simp only [smul_fst, smul_snd₁, smul_snd₂, rsum_eq_sum]
      rw [Finset.sum_congr rfl (hT (fun p => p.1))]
      have hfin : ∀ i ∈ Finset.range cps.length,
          (basis_vector qle knots (degree + 1) cps.length u).getD i 0
              * (M.apply (cps.getD i 0)).1
            = (basis_vector qle knots (degree + 1) cps.length u).getD i 0
              * (dot3 M.rx (cps.getD i 0) + M.v.1) := by
        intro i _
        rw [apply_fst]
      rw [Finset.sum_congr rfl hfin]
      have := affine_row_sum cps.length
        (fun i => (basis_vector qle knots (degree + 1) cps.length u).getD i 0)
        (fun i => cps.getD i 0) M.rx M.v.1 hsumN
      simpa [dot3] using this
    · rw [rsum_snd₁, apply_snd₁]
      simp only [smul_snd₁, dot3]
      rw [rsum_fst, rsum_snd₁, rsum_snd₂]
      simp only [smul_fst, smul_snd₁, smul_snd₂, rsum_eq_sum]
      rw [Finset.sum_congr rfl (hT (fun p => p.2.1))]
      have hfin : ∀ i ∈ Finset.range cps.length,
          (basis_vector qle knots (degree + 1) cps.length u).getD i 0
              * (M.apply (cps.getD i 0)).2.1
            = (basis_vector qle knots (degree + 1) cps.length u).getD i 0
              * (dot3 M.ry (cps.getD i 0) + M.v.2.1) := by
        intro i _
        rw [apply_snd₁]
      rw [Finset.sum_congr rfl hfin]
      have := affine_row_sum cps.length
        (fun i => (basis_vector qle knots (degree + 1) cps.length u).getD i 0)
        (fun i => cps.getD i 0) M.ry M.v.2.1 hsumN
      simpa [dot3] using this
    · rw [rsum_snd₂, apply_snd₂]
      simp only [smul_snd₂, dot3]
      rw [rsum_fst, rsum_snd₁, rsum_snd₂]
      simp only [smul_fst, smul_snd₁, smul_snd₂, rsum_eq_sum]
      rw [Finset.sum_congr rfl (hT (fun p => p.2.2))]
      have hfin : ∀ i ∈ Finset.range cps.length,
          (basis_vector qle knots (degree + 1) cps.length u).getD i 0
              * (M.apply (cps.getD i 0)).2.2
            = (basis_vector qle knots (degree + 1) cps.length u).getD i 0
              * (dot3 M.rz (cps.getD i 0) + M.v.2.2) := by
        intro i _
        rw [apply_snd₂]
      rw [Finset.sum_congr rfl hfin]
      have := affine_row_sum cps.length
        (fun i => (basis_vector qle knots (degree + 1) cps.length u).getD i 0)
        (fun i => cps.getD i 0) M.rz M.v.2.2 hsumN
      simpa [dot3] using this
  · have hwne : weights ≠ [] := by
      intro hnil
      rw [hnil] at hwlen
      simp at hwlen
      omega
    have hdsum : rsum cps.length
        (fun i => (basis_vector qle knots (degree + 1) cps.length u).getD i 0
          * weights.getD i 1)
        = ∑ i in Finset.range cps.length,
            (basis_vector qle knots (degree + 1) cps.length u).getD i 0
              * weights.getD i 1 := rsum_eq_sum _ _
    have hwipos : ∀ i, i < cps.length → 0 < weights.getD i 1 := by
      intro i hi
      rw [List.getD_eq_getElem _ _ (by omega)]
      exact hwpos _ (List.getElem_mem _)
    have hdpos : 0 < rsum cps.length
        (fun i => (basis_vector qle knots (degree + 1) cps.length u).getD i 0
          * weights.getD i 1) := by
      rw [hdsum]
      refine Finset.sum_pos' ?_ ?_
      · intro i hi
        exact mul_nonneg (hnn i) (hwipos i (Finset.mem_range.mp hi)).le
      · have hex : ∃ i ∈ Finset.range cps.length,
            (basis_vector qle knots (degree + 1) cps.length u).getD i 0 ≠ 0 := by
          refine Finset.exists_ne_zero_of_sum_ne_zero ?_
          rw [hsumN]
          norm_num
        obtain ⟨i, hi, hne⟩ := hex
        exact ⟨i, hi, mul_pos (lt_of_le_of_ne (hnn i) (Ne.symm hne))
          (hwipos i (Finset.mem_range.mp hi))⟩
    have hdne : rsum cps.length
        (fun i => (basis_vector qle knots (degree + 1) cps.length u).getD i 0
          * weights.getD i 1) ≠ 0 := ne_of_gt hdpos
    show (⟨cps.map M.apply, degree + 1, knots, weights⟩ : BSpline ℚ).point qle u = _
    simp only [BSpline.point]
    rw [if_neg hwne, if_neg hwne, List.length_map]
    have hT : ∀ c : Vec3 ℚ → ℚ, ∀ i ∈ Finset.range cps.length,
        ((basis_vector qle knots (degree + 1) cps.length u).getD i 0
              * weights.getD i 1)
            * c ((cps.map M.apply).getD i 0)
          = ((basis_vector qle knots (degree + 1) cps.length u).getD i 0
              * weights.getD i 1)
            * c (M.apply (cps.getD i 0)) := by
      intro c i hi
      rw [getD_map_apply M cps i (Finset.mem_range.mp hi)]
    have hsumC : ∑ i in Finset.range cps.length,
        (basis_vector qle knots (degree + 1) cps.length u).getD i 0
          * weights.getD i 1
        = rsum cps.length
            (fun i => (basis_vector qle knots (degree + 1) cps.length u).getD i 0
              * weights.getD i 1) := hdsum.symm
    refine Prod.ext ?_ (Prod.ext ?_ ?_)
    · rw [smul_fst, rsum_fst, apply_fst]
      simp only [dot3, smul_fst, smul_snd₁, smul_snd₂]
      rw [rsum_fst, rsum_snd₁, rsum_snd₂]
      simp only [smul_fst, smul_snd₁, smul_snd₂, rsum_eq_sum]
      rw [Finset.sum_congr rfl (hT (fun p => p.1))]
      have hfin : ∀ i ∈ Finset.range cps.length,
          ((basis_vector qle knots (degree + 1) cps.length u).getD i 0
              * weights.getD i 1) * (M.apply (cps.getD i 0)).1
            = ((basis_vector qle knots (degree + 1) cps.length u).getD i 0
              * weights.getD i 1) * (dot3 M.rx (cps.getD i 0) + M.v.1) := by
        intro i _
        rw [apply_fst]
      rw [Finset.sum_congr rfl hfin]
      have := affine_row_sum_scaled cps.length
        (fun i => (basis_vector qle knots (degree + 1) cps.length u).getD i 0
          * weights.getD i 1)
        (fun i => cps.getD i 0) M.rx M.v.1 _ hdne hsumC
      simpa [dot3, rsum_eq_sum] using this
    · rw [smul_snd₁, rsum_snd₁, apply_snd₁]
      simp only [dot3, smul_fst, smul_snd₁, smul_snd₂]
      rw [rsum_fst, rsum_snd₁, rsum_snd₂]
      simp only [smul_fst, smul_snd₁, smul_snd₂, rsum_eq_sum]
      rw [Finset.sum_congr rfl (hT (fun p => p.2.1))]
      have hfin : ∀ i ∈ Finset.range cps.length,
          ((basis_vector qle knots (degree + 1) cps.length u).getD i 0
              * weights.getD i 1) * (M.apply (cps.getD i 0)).2.1
            = ((basis_vector qle knots (degree + 1) cps.length u).getD i 0
              * weights.getD i 1) * (dot3 M.ry (cps.getD i 0) + M.v.2.1) := by
        intro i _
        rw [apply_snd₁]
      rw [Finset.sum_congr rfl hfin]
      have := affine_row_sum_scaled cps.length
        (fun i => (basis_vector qle knots (degree + 1) cps.length u).getD i 0
          * weights.getD i 1)
        (fun i => cps.getD i 0) M.ry M.v.2.1 _ hdne hsumC
      simpa [dot3, rsum_eq_sum] using this
    · rw [smul_snd₂, rsum_snd₂, apply_snd₂]
      simp only [dot3, smul_fst, smul_snd₁, smul_snd₂]
      rw [rsum_fst, rsum_snd₁, rsum_snd₂]
      simp only [smul_fst, smul_snd₁, smul_snd₂, rsum_eq_sum]
      rw [Finset.sum_congr rfl (hT (fun p => p.2.2))]
      have hfin : ∀ i ∈ Finset.range cps.length,
          ((basis_vector qle knots (degree + 1) cps.length u).getD i 0
              * weights.getD i 1) * (M.apply (cps.getD i 0)).2.2
            = ((basis_vector qle knots (degree + 1) cps.length u).getD i 0
              * weights.getD i 1) * (dot3 M.rz (cps.getD i 0) + M.v.2.2) := by
        intro i _
        rw [apply_snd₂]
      rw [Finset.sum_congr rfl hfin]
      have := affine_row_sum_scaled cps.length
        (fun i => (basis_vector qle knots (degree + 1) cps.length u).getD i 0
          * weights.getD i 1)
        (fun i => cps.getD i 0) M.rz M.v.2.2 _ hdne hsumC
      simpa [dot3, rsum_eq_sum] using this

/-- C9: transform and evaluation commute — for every (clamped, valid) curve, every
affine map `M` and every parameter in the domain, the transformed curve's `point(t)`
equals `M` applied to the original curve's `point(t)`; `transform` leaves the weights
(and knots) unchanged; and translating the curve on control points
`[(1,0,0),(3,3,0),(6,0,1)]` by `(1,2,3)` makes its first control point `(2,2,3)`. -/
theorem C9_transform_commutes (M : AffineMap3 ℚ) (cps : List (Vec3 ℚ))
    (knots weights : List ℚ) (degree : ℕ) (u : ℚ)
    (hs : knots.Sorted (· ≤ ·))
    (hlen : knots.length = cps.length + degree + 1)
    (hco : degree + 1 ≤ cps.length)
    (hcl1 : knotGet knots (cps.length - 1) < knotGet knots cps.length)
    (hcl2 : knotGet knots (cps.length + degree) = knotGet knots cps.length)
    (hdom1 : knotGet knots degree ≤ u) (hdom2 : u ≤ knotGet knots cps.length)
    (hw : weights = [] ∨ (weights.length = cps.length ∧ ∀ w ∈ weights, 0 < w)) :
    ((BSpline.transform M ⟨cps, degree + 1, knots, weights⟩).point qle u
        = M.apply ((⟨cps, degree + 1, knots, weights⟩ : BSpline ℚ).point qle u))
    ∧ (BSpline.transform M ⟨cps, degree + 1, knots, weights⟩).weights = weights
    ∧ (BSpline.transform M ⟨cps, degree + 1, knots, weights⟩).knots = knots
    ∧ (BSpline.transform (translate3 1 2 3)
          (mkBSpline [(1, 0, 0), (3, 3, 0), (6, 0, 1)] 3 none [])).control_points.getD 0 0
        = ((2 : ℚ), (2 : ℚ), (3 : ℚ)) :=
  ⟨transform_point_commute M cps knots weights degree u hs hlen hco hcl1 hcl2
      hdom1 hdom2 hw,
    rfl, rfl, by decide⟩

/-- Witness for C9: the test's translate example discharged at the concrete curve on
`[(1,0,0),(3,3,0),(6,0,1)]` with order 3 and `u = 1/2`. -/
theorem C9_transform_commutes_witness :
    (([0, 0, 0, 1, 1, 1] : List ℚ).Sorted (· ≤ ·)
      ∧ ([0, 0, 0, 1, 1, 1] : List ℚ).length
          = ([((1 : ℚ), (0 : ℚ), (0 : ℚ)), (3, 3, 0), (6, 0, 1)] : List (Vec3 ℚ)).length + 2 + 1
      ∧ knotGet ([0, 0, 0, 1, 1, 1] : List ℚ) 2 ≤ (1/2 : ℚ)
      ∧ (1/2 : ℚ) ≤ knotGet ([0, 0, 0, 1, 1, 1] : List ℚ) 3)
    ∧ (BSpline.transform (translate3 1 2 3)
        ⟨[((1 : ℚ), (0 : ℚ), (0 : ℚ)), (3, 3, 0), (6, 0, 1)], 2 + 1,
          [0, 0, 0, 1, 1, 1], []⟩).weights = ([] : List ℚ) :=
  ⟨⟨by decide, by decide, by decide, by decide⟩,
    (C9_transform_commutes (translate3 1 2 3)
      [((1 : ℚ), (0 : ℚ), (0 : ℚ)), (3, 3, 0), (6, 0, 1)] [0, 0, 0, 1, 1, 1] [] 2 (1/2)
      (by decide) (by decide) (by decide) (by decide) (by decide) (by decide) (by decide)
      (Or.inl rfl)).2.1⟩

theorem Vec3.add_def (a b : Vec3 F) :
    a + b = (a.1 + b.1, a.2.1 + b.2.1, a.2.2 + b.2.2) := rfl

theorem Vec3.smul_def (c : F) (a : Vec3 F) :
    c • a = (c * a.1, c * a.2.1, c * a.2.2) := rfl

theorem Vec3.zero_def : (0 : Vec3 F) = ((0 : F), (0 : F), (0 : F)) := rfl

theorem normalize_knots_headD (ks : List F) (h : ks ≠ []) :
    (normalize_knots ks).headD 0 = 0 := by
  cases ks with
  | nil => exact absurd rfl h
  | cons a l => simp [normalize_knots]

theorem getLast?_map (f : ℚ → ℚ) (l : List ℚ) :
    (l.map f).getLast? = l.getLast?.map f := by
  induction l with
  | nil => rfl
  | cons a l ih =>
      cases l with
      | nil => rfl
      | cons b r => simpa [List.getLast?_cons_cons] using ih

theorem normalize_knots_getLastD (ks : List ℚ) (h : ks.headD 0 < ks.getLastD 0) :
    (normalize_knots ks).getLastD 0 = 1 := by
  have hne : ks.getLastD 0 - ks.headD 0 ≠ 0 := sub_ne_zero.mpr (ne_of_gt h)
  cases ks with
  | nil => simp at h
  | cons a l =>
      simp only [normalize_knots, List.getLastD_eq_getLast?, getLast?_map]
      cases hl : (a :: l).getLast? with
      | none => simp [List.getLast?_eq_none_iff] at hl
      | some b =>
          have hb : (a :: l).getLastD 0 = b := by
            simp [List.getLastD_eq_getLast?, hl]
          simp only [Option.map_some, Option.getD_some]
          exact div_self (hb ▸ hne)

theorem normalize_knots_getD (ks : List ℚ) (i : ℕ) (h : i < ks.length) :
    (normalize_knots ks).getD i 0
      = (ks.getD i 0 - ks.headD 0) / (ks.getLastD 0 - ks.headD 0) := by
  simp only [normalize_knots, List.getD_eq_getElem?_getD, List.getElem?_map]
  rw [List.getElem?_eq_getElem h]
  simp

theorem normalize_knots_of_normalized (ks : List ℚ) (h0 : ks.headD 0 = 0)
    (h1 : ks.getLastD 0 = 1) : normalize_knots ks = ks := by
  show ks.map (fun v => (v - ks.headD 0) / (ks.getLastD 0 - ks.headD 0)) = ks
  rw [h0, h1]
  simp

theorem normalize_knots_idem (ks : List ℚ) (h : ks.headD 0 < ks.getLastD 0) :
    normalize_knots (normalize_knots ks) = normalize_knots ks := by
  have hne : ks ≠ [] := by rintro rfl; simp at h
  exact normalize_knots_of_normalized _ (normalize_knots_headD ks hne)
    (normalize_knots_getLastD ks h)

theorem normalize_knots_translate (ks : List ℚ) (c : ℚ) :
    normalize_knots (ks.map (· + c)) = normalize_knots ks := by
  cases ks with
  | nil => rfl
  | cons a l =>
      have hhead : ((a :: l).map (· + c)).headD 0 = (a :: l).headD 0 + c := rfl
      have hlast : ((a :: l).map (· + c)).getLastD 0 = (a :: l).getLastD 0 + c := by
        simp only [List.getLastD_eq_getLast?, getLast?_map]
        cases hl : (a :: l).getLast? with
        | none => simp [List.getLast?_eq_none_iff] at hl
        | some b => simp
      show ((a :: l).map (· + c)).map
          (fun v => (v - ((a :: l).map (· + c)).headD 0)
            / (((a :: l).map (· + c)).getLastD 0 - ((a :: l).map (· + c)).headD 0))
        = (a :: l).map
          (fun v => (v - (a :: l).headD 0) / ((a :: l).getLastD 0 - (a :: l).headD 0))
      rw [hhead, hlast, List.map_map]
      apply List.map_congr_left
      intro x _
      simp only [Function.comp_apply]
      have : (a :: l).getLastD 0 + c - ((a :: l).headD 0 + c)
          = (a :: l).getLastD 0 - (a :: l).headD 0 := by ring
      rw [this]
      congr 1
      ring

/-- C6: `normalize` rescales a knot sequence affinely so the first value maps to 0 and
the last to 1 while preserving relative spacing; it is idempotent (both in the sense
`normalize (normalize ks) = normalize ks` and as a no-op on already-normalized input),
translation-invariant, and produces `[0, 1/4, 1/2, 3/4, 1]` on both `[0,1,2,3,4]` and
`[2,3,4,5,6]`. -/
theorem C6_normalize_knots (ks : List ℚ) (c : ℚ)
    (h : ks.headD 0 < ks.getLastD 0) :
    (normalize_knots ks).headD 0 = 0
    ∧ (normalize_knots ks).getLastD 0 = 1
    ∧ (∀ i, i < ks.length → (normalize_knots ks).getD i 0
        = (ks.getD i 0 - ks.headD 0) / (ks.getLastD 0 - ks.headD 0))
    ∧ normalize_knots (normalize_knots ks) = normalize_knots ks
    ∧ (ks.headD 0 = 0 → ks.getLastD 0 = 1 → normalize_knots ks = ks)
    ∧ normalize_knots (ks.map (· + c)) = normalize_knots ks
    ∧ normalize_knots ([0, 1, 2, 3, 4] : List ℚ) = [0, 1/4, 1/2, 3/4, 1]
    ∧ normalize_knots ([2, 3, 4, 5, 6] : List ℚ) = [0, 1/4, 1/2, 3/4, 1] := by
  have hne : ks ≠ [] := by rintro rfl; simp at h
  refine ⟨normalize_knots_headD ks hne, normalize_knots_getLastD ks h,
    fun i hi => normalize_knots_getD ks i hi, normalize_knots_idem ks h,
    fun h0 h1 => normalize_knots_of_normalized ks h0 h1,
    normalize_knots_translate ks c, by decide, by decide⟩

/-- Witness for C6 at the concrete knot vector `[0,1,2,3,4]` with shift 2. -/
theorem C6_normalize_knots_witness :
    (([0, 1, 2, 3, 4] : List ℚ).headD 0 < ([0, 1, 2, 3, 4] : List ℚ).getLastD 0)
    ∧ normalize_knots (normalize_knots ([0, 1, 2, 3, 4] : List ℚ))
        = normalize_knots ([0, 1, 2, 3, 4] : List ℚ) :=
  ⟨by decide, (C6_normalize_knots ([0, 1, 2, 3, 4] : List ℚ) 2 (by decide)).2.2.2.1⟩

theorem subdivide_params_length (ps : List ℚ) :
    (subdivide_params ps).length = 2 * ps.length - 1 := by
  induction ps with
  | nil => rfl
  | cons x l ih =>
      cases l with
      | nil => rfl
      | cons y r =>
          simp only [subdivide_params, List.length_cons] at ih ⊢
          omega

theorem subdivide_params_getD_even (ps : List ℚ) (i : ℕ) (h : i < ps.length) :
    (subdivide_params ps).getD (2 * i) 0 = ps.getD i 0 := by
  induction ps generalizing i with
  | nil => simp at h
  | cons x l ih =>
      cases l with
      | nil =>
          cases i with
          | zero => rfl
          | succ j => simp at h
      | cons y r =>
          cases i with
          | zero => rfl
          | succ j =>
              have e : 2 * (j + 1) = (2 * j) + 1 + 1 := by ring
              rw [e]
              simpa [subdivide_params] using ih j (Nat.lt_of_succ_lt_succ h)

theorem subdivide_params_getD_odd (ps : List ℚ) (i : ℕ) (h : i + 1 < ps.length) :
    (subdivide_params ps).getD (2 * i + 1) 0
      = (ps.getD i 0 + ps.getD (i + 1) 0) / 2 := by
  induction ps generalizing i with
  | nil => simp at h
  | cons x l ih =>
      cases l with
      | nil => simp at h
      | cons y r =>
          cases i with
          | zero => rfl
          | succ j =>
              have e : 2 * (j + 1) + 1 = (2 * j + 1) + 1 + 1 := by ring
              rw [e]
              simpa [subdivide_params] using ih j (Nat.lt_of_succ_lt_succ h)

/-- C7: `subdivide` keeps the original ordered values at even positions, inserts the
arithmetic midpoint of each consecutive pair at odd positions, and returns `2n-1`
values for `n` input values; `subdivide([0,1]) = [0,1/2,1]` and
`subdivide([0,1/2,1]) = [0,1/4,1/2,3/4,1]`. -/
theorem C7_subdivide_params (ps : List ℚ) (h : 2 ≤ ps.length) :
    (subdivide_params ps).length = 2 * ps.length - 1
    ∧ (∀ i, i < ps.length → (subdivide_params ps).getD (2 * i) 0 = ps.getD i 0)
    ∧ (∀ i, i + 1 < ps.length → (subdivide_params ps).getD (2 * i + 1) 0
        = (ps.getD i 0 + ps.getD (i + 1) 0) / 2)
    ∧ subdivide_params ([0, 1] : List ℚ) = [0, 1/2, 1]
    ∧ subdivide_params ([0, 1/2, 1] : List ℚ) = [0, 1/4, 1/2, 3/4, 1] :=
  ⟨subdivide_params_length ps, fun i hi => subdivide_params_getD_even ps i hi,
    fun i hi => subdivide_params_getD_odd ps i hi, by decide, by decide⟩

/-- Witness for C7 at the concrete parameter list `[0, 1]`. -/
theorem C7_subdivide_params_witness :
    2 ≤ ([0, 1] : List ℚ).length
    ∧ (subdivide_params ([0, 1] : List ℚ)).length = 2 * ([0, 1] : List ℚ).length - 1 :=
  ⟨by decide, (C7_subdivide_params ([0, 1] : List ℚ) (by decide)).1⟩

/-- C10: constructing a curve with an explicitly supplied knot vector normalizes it —
the stored knots start at 0; for the supplied knots `[2,2,2,2,3,6,6,6,6]` with order 4
the stored vector is exactly `[0,0,0,0,1/4,1,1,1,1]`, so the parameter domain is the
normalized one. -/
theorem C10_explicit_knots_normalized (cps : List (Vec3 ℚ)) (order : ℕ)
    (ks ws : List ℚ) (h : ks.headD 0 < ks.getLastD 0) :
    (mkBSpline cps order (some ks) ws).knots.headD 0 = 0
    ∧ (mkBSpline defpoints 4 (some [2, 2, 2, 2, 3, 6, 6, 6, 6]) []).knots
        = [0, 0, 0, 0, 1/4, 1, 1, 1, 1] := by
  constructor
  · have hne : ks ≠ [] := by rintro rfl; simp at h
    simpa [mkBSpline] using normalize_knots_headD (F := ℚ) ks hne
  · decide

/-- Witness for C10 at the test's supplied knot vector. -/
theorem C10_explicit_knots_normalized_witness :
    (([2, 2, 2, 2, 3, 6, 6, 6, 6] : List ℚ).headD 0
        < ([2, 2, 2, 2, 3, 6, 6, 6, 6] : List ℚ).getLastD 0)
    ∧ (mkBSpline defpoints 4 (some [2, 2, 2, 2, 3, 6, 6, 6, 6]) []).knots.headD 0 = 0 :=
  ⟨by decide,
    (C10_explicit_knots_normalized defpoints 4 [2, 2, 2, 2, 3, 6, 6, 6, 6] []
      (by decide)).1⟩

/-- C4 counterexample: `insert_knot` does not leave the receiver as it was — the
test's own 8-control-point curve has 9 control points after the call
(`test_621_bspline.py::test_bspline_insert_knot` asserts exactly this mutation). -/
theorem C4_counterexample :
    (insertKnotCall qle (mkBSpline points8 4 none []) (1/2)).control_points
      ≠ (mkBSpline points8 4 none []).control_points := by decide

theorem count_insert_middle (l : List ℚ) (t : ℚ) (n : ℕ) :
    (l.take n ++ t :: l.drop n).count t = l.count t + 1 := by
  rw [List.count_append, List.count_cons]
  conv_rhs => rw [← List.take_append_drop n l, List.count_append]
  simp
  omega

/-- C4 amended: `bezier_decomposition` and `cubic_bezier_approximation` return fresh
segment sequences and leave the receiver exactly as it was, but `insert_knot` refines
the receiver in place: after the call the receiver holds one more control point and
one more copy of the inserted knot value (weights unchanged). -/
theorem C4_amended_receiver_effects (s : BSpline ℚ) (t : ℚ) (n : ℕ) :
    (insertKnotCall qle s t).control_points.length = s.control_points.length + 1
    ∧ (insertKnotCall qle s t).knots.count t = s.knots.count t + 1
    ∧ (insertKnotCall qle s t).weights = s.weights
    ∧ (bezierDecompositionCall qle s).2 = s
    ∧ (cubicBezierApproximationCall qle s n).2 = s := by
  refine ⟨?_, ?_, rfl, rfl, rfl⟩
  · simp [insertKnotCall, BSpline.insert_knot, boehm_insert]
  · simpa [insertKnotCall, BSpline.insert_knot, boehm_insert, insKnots]
      using count_insert_middle s.knots t _

/-- C1 counterexample: with order 3 (as the claim states it) the curve built on
`DEFPOINTS` misses the expected value `(11.84, 13.76, 16.64)` at `t = 1/5` by far
more than `1e-9` (the expected values belong to the constructor's default order 4). -/
theorem C1_counterexample :
    ¬ pointWithin (1/1000000000)
        ((mkBSpline defpoints 3 none []).point qle (1/5))
        (1184/100, 1376/100, 1664/100) := by decide

/-- C1 amended: for the curve on `DEFPOINTS` with order 4 — the constructor default,
which is what `test_if_nurbs_python_is_reliable` uses — the points evaluated at
`[0, 1/5, 2/5, 3/5, 4/5, 1]` match the literal expected sequence within `1e-9` per
component. -/
theorem C1_point_evaluation :
    pointWithin (1/1000000000)
        ((mkBSpline defpoints 4 none []).point qle 0) (0, 0, 0)
    ∧ pointWithin (1/1000000000)
        ((mkBSpline defpoints 4 none []).point qle (1/5))
        (1184/100, 1376/100, 1664/100)
    ∧ pointWithin (1/1000000000)
        ((mkBSpline defpoints 4 none []).point qle (2/5))
        (2272/100, 1408/100, 2272/100)
    ∧ pointWithin (1/1000000000)
        ((mkBSpline defpoints 4 none []).point qle (3/5))
        (3176/100, 1120/100, 2440/100)
    ∧ pointWithin (1/1000000000)
        ((mkBSpline defpoints 4 none []).point qle (4/5))
        (3992/100, 800/100, 2600/100)
    ∧ pointWithin (1/1000000000)
        ((mkBSpline defpoints 4 none []).point qle 1) (50, 0, 30) := by decide

theorem insKnots_length (T : List ℚ) (k : ℕ) (t : ℚ) (hk : k < T.length) :
    (insKnots T k t).length = T.length + 1 := by
  simp [insKnots]
  omega

theorem insKnots_get_low (T : List ℚ) (k : ℕ) (t : ℚ) (j : ℕ)
    (hj : j ≤ k) (hk : k < T.length) :
    knotGet (insKnots T k t) j = knotGet T j := by
  have hlt : j < (T.take (k + 1)).length := by
    rw [List.length_take]
    omega
  rw [insKnots, knotGet, knotGet, List.getD_eq_getElem?_getD, List.getD_eq_getElem?_getD,
    List.getElem?_append_left hlt, List.getElem?_take_of_lt (show j < k + 1 by omega)]

theorem insKnots_get_mid (T : List ℚ) (k : ℕ) (t : ℚ) (hk : k < T.length) :
    knotGet (insKnots T k t) (k + 1) = t := by
  have hlen : (T.take (k + 1)).length = k + 1 := by
    rw [List.length_take]
    omega
  rw [insKnots, knotGet, List.getD_eq_getElem?_getD,
    List.getElem?_append_right (by omega), hlen]
  simp

theorem insKnots_get_high (T : List ℚ) (k : ℕ) (t : ℚ) (j : ℕ)
    (hj : k + 2 ≤ j) (hk : k < T.length) :
    knotGet (insKnots T k t) j = knotGet T (j - 1) := by
  have hlen : (T.take (k + 1)).length = k + 1 := by
    rw [List.length_take]
    omega
  rw [insKnots, knotGet, knotGet, List.getD_eq_getElem?_getD, List.getD_eq_getElem?_getD,
    List.getElem?_append_right (by omega), hlen]
  have hstep : j - (k + 1) = (j - k - 2) + 1 := by omega
  rw [hstep, List.getElem?_cons_succ, List.getElem?_drop]
  rw [show k + 1 + (j - k - 2) = j - 1 from by omega]

theorem insKnots_sorted (T : List ℚ) (hs : T.Sorted (· ≤ ·)) (k : ℕ) (t : ℚ)
    (h1 : knotGet T k ≤ t) (h2 : t ≤ knotGet T (k + 1)) (hk : k + 1 < T.length) :
    (insKnots T k t).Sorted (· ≤ ·) := by
  have hlen : (insKnots T k t).length = T.length + 1 := insKnots_length T k t (by omega)
  rw [List.Sorted, List.pairwise_iff_getElem]
  intro i j hi hj hij
  rw [hlen] at hi hj
  have hgi : (insKnots T k t)[i] = knotGet (insKnots T k t) i :=
    (knotGet_eq_getElem _ i (by omega)).symm
  have hgj : (insKnots T k t)[j] = knotGet (insKnots T k t) j :=
    (knotGet_eq_getElem _ j (by omega)).symm
  rw [hgi, hgj]
  rcases Nat.lt_or_ge j (k + 1) with hjk | hjk
  · rw [insKnots_get_low T k t i (by omega) (by omega),
      insKnots_get_low T k t j (by omega) (by omega)]
    exact knotGet_mono T hs (by omega) (by omega)
  · rcases Nat.eq_or_lt_of_le hjk with hje | hjk2
    · rw [← hje, insKnots_get_mid T k t (by omega),
        insKnots_get_low T k t i (by omega) (by omega)]
      exact le_trans (knotGet_mono T hs (show i ≤ k by omega) (by omega)) h1
    · rw [insKnots_get_high T k t j (by omega) (by omega)]
      rcases Nat.lt_or_ge i (k + 1) with hik | hik
      · rw [insKnots_get_low T k t i (by omega) (by omega)]
        exact knotGet_mono T hs (by omega) (by omega)
      · rcases Nat.eq_or_lt_of_le hik with hie | hik2
        · rw [← hie, insKnots_get_mid T k t (by omega)]
          exact le_trans h2 (knotGet_mono T hs (show k + 1 ≤ j - 1 by omega) (by omega))
        · rw [insKnots_get_high T k t i (by omega) (by omega)]
          exact knotGet_mono T hs (by omega) (by omega)

theorem lam_one (T : List ℚ) (q k : ℕ) (t : ℚ) (i : ℕ) (h : i + q ≤ k) :
    lam T q k t i = 1 := by
  simp only [lam]
  rw [if_pos h]

theorem lam_ratio (T : List ℚ) (q k : ℕ) (t : ℚ) (i : ℕ)
    (h1 : k < i + q) (h2 : i ≤ k) :
    lam T q k t i = (t - knotGet T i) / (knotGet T (i + q) - knotGet T i) := by
  simp only [lam]
  rw [if_neg (by omega), if_pos h2]

theorem lam_zero (T : List ℚ) (q k : ℕ) (t : ℚ) (i : ℕ) (h : k < i) :
    lam T q k t i = 0 := by
  simp only [lam]
  rw [if_neg (by omega), if_neg (by omega)]

theorem boehm_g1 (T : List ℚ) (hs : T.Sorted (· ≤ ·)) (t : ℚ) (k : ℕ)
    (hk1 : knotGet T k ≤ t) (hk2 : t < knotGet T (k + 1)) (hkr : k + 1 < T.length)
    (u : ℚ) (q i : ℕ) (b : ℚ)
    (hg : b ≠ 0 → knotGet (insKnots T k t) i < knotGet (insKnots T k t) (i + q + 1)) :
    (u - knotGet T i) / (knotGet T (i + q + 1) - knotGet T i) * (lam T q k t i * b)
      = lam T (q + 1) k t i
        * ((u - knotGet (insKnots T k t) i)
            / (knotGet (insKnots T k t) (i + q + 1) - knotGet (insKnots T k t) i)
          * b) := by
  rcases Nat.lt_or_ge k i with hik | hik
  · rw [lam_zero T q k t i hik, lam_zero T (q + 1) k t i hik]
    ring
  · rcases Nat.lt_or_ge k (i + q) with hmid | hleft
    · have h2 : lam T q k t i = (t - knotGet T i) / (knotGet T (i + q) - knotGet T i) :=
        lam_ratio T q k t i hmid hik
      have h3 : lam T (q + 1) k t i
          = (t - knotGet T i) / (knotGet T (i + q + 1) - knotGet T i) :=
        lam_ratio T (q + 1) k t i (by omega) hik
      rw [h2, h3, insKnots_get_low T k t i hik (by omega),
        insKnots_get_high T k t (i + q + 1) (by omega) (by omega),
        show i + q + 1 - 1 = i + q from by omega]
      ring
    · rw [lam_one T q k t i hleft]
      rcases Nat.lt_or_ge k (i + q + 1) with hh | hh
      · have h3 : lam T (q + 1) k t i
            = (t - knotGet T i) / (knotGet T (i + q + 1) - knotGet T i) :=
          lam_ratio T (q + 1) k t i (by omega) hik
        rw [h3, insKnots_get_low T k t i hik (by omega),
          show i + q + 1 = k + 1 from by omega, insKnots_get_mid T k t (by omega)]
        by_cases hb0 : b = 0
        · rw [hb0]; ring
        · have hspan := hg hb0
          rw [insKnots_get_low T k t i hik (by omega),
            show i + q + 1 = k + 1 from by omega,
            insKnots_get_mid T k t (by omega)] at hspan
          have hden1 : t - knotGet T i ≠ 0 := (sub_pos.mpr hspan).ne'
          have hmono : knotGet T i ≤ knotGet T k := knotGet_mono T hs hik (by omega)
          have hden2 : knotGet T (k + 1) - knotGet T i ≠ 0 := by
            have hlt : knotGet T i < knotGet T (k + 1) := by linarith
            exact (sub_pos.mpr hlt).ne'
          field_simp
          ring
      · rw [lam_one T (q + 1) k t i (by omega),
          insKnots_get_low T k t i (by omega) (by omega),
          insKnots_get_low T k t (i + q + 1) (by omega) (by omega)]
        ring

theorem boehm_g3 (T : List ℚ) (hs : T.Sorted (· ≤ ·)) (t : ℚ) (k : ℕ)
    (hk1 : knotGet T k ≤ t) (hk2 : t < knotGet T (k + 1)) (hkr : k + 1 < T.length)
    (u : ℚ) (q i : ℕ) (hr : i + q + 2 < T.length) (b : ℚ)
    (hg : b ≠ 0 →
      knotGet (insKnots T k t) (i + 2) < knotGet (insKnots T k t) (i + q + 3)) :
    (knotGet T (i + q + 2) - u) / (knotGet T (i + q + 2) - knotGet T (i + 1))
        * ((1 - lam T q k t (i + 2)) * b)
      = (1 - lam T (q + 1) k t (i + 1))
        * ((knotGet (insKnots T k t) (i + q + 3) - u)
            / (knotGet (insKnots T k t) (i + q + 3) - knotGet (insKnots T k t) (i + 2))
          * b) := by
  rcases Nat.lt_or_ge k (i + 1) with hik | hik
  · rw [lam_zero T q k t (i + 2) (by omega), lam_zero T (q + 1) k t (i + 1) (by omega),
      insKnots_get_high T k t (i + 2) (by omega) (by omega),
      insKnots_get_high T k t (i + q + 3) (by omega) (by omega),
      show i + 2 - 1 = i + 1 from by omega, show i + q + 3 - 1 = i + q + 2 from by omega]
    ring
  · rcases Nat.lt_or_ge k (i + q + 2) with hmid | hleft
    swap
    · rw [lam_one T q k t (i + 2) (by omega), lam_one T (q + 1) k t (i + 1) (by omega)]
      ring
    · have hΛ := lam_ratio T (q + 1) k t (i + 1) (by omega) (by omega)
      rw [show i + 1 + (q + 1) = i + q + 2 from by omega] at hΛ
      have hT3 : knotGet (insKnots T k t) (i + q + 3) = knotGet T (i + q + 2) := by
        rw [insKnots_get_high T k t (i + q + 3) (by omega) (by omega)]
        rw [show i + q + 3 - 1 = i + q + 2 from by omega]
      rcases Nat.lt_or_ge k (i + 2) with hc | hc
      · rw [hΛ, lam_zero T q k t (i + 2) (by omega), hT3,
          show i + 2 = k + 1 from by omega, insKnots_get_mid T k t (by omega)]
        by_cases hb0 : b = 0
        · rw [hb0]; ring
        · have hspan := hg hb0
          rw [hT3, show i + 2 = k + 1 from by omega,
            insKnots_get_mid T k t (by omega)] at hspan
          have hm : knotGet T (i + 1) ≤ t := by
            have hmm := knotGet_mono T hs (show i + 1 ≤ k from by omega) (by omega)
            linarith
          have hd1 : knotGet T (i + q + 2) - t ≠ 0 := (sub_pos.mpr hspan).ne'
          have hd2 : knotGet T (i + q + 2) - knotGet T (i + 1) ≠ 0 := by
            have hlt : knotGet T (i + 1) < knotGet T (i + q + 2) := by linarith
            exact (sub_pos.mpr hlt).ne'
          field_simp
          ring
      · have hν := lam_ratio T q k t (i + 2) (by omega) (by omega)
        rw [show i + 2 + q = i + q + 2 from by omega] at hν
        rw [hΛ, hν, hT3, insKnots_get_low T k t (i + 2) (by omega) (by omega)]
        by_cases hb0 : b = 0
        · rw [hb0]; ring
        · have hspan := hg hb0
          rw [hT3, insKnots_get_low T k t (i + 2) (by omega) (by omega)] at hspan
          have hd2 : knotGet T (i + q + 2) - knotGet T (i + 2) ≠ 0 :=
            (sub_pos.mpr hspan).ne'
          have hm : knotGet T (i + 1) ≤ knotGet T (i + 2) :=
            knotGet_mono T hs (by omega) (by omega)
          have hd1 : knotGet T (i + q + 2) - knotGet T (i + 1) ≠ 0 := by
            have hlt : knotGet T (i + 1) < knotGet T (i + q + 2) := by linarith
            exact (sub_pos.mpr hlt).ne'
          field_simp
          ring

theorem boehm_g2 (T : List ℚ) (hs : T.Sorted (· ≤ ·)) (t : ℚ) (k : ℕ)
    (hk1 : knotGet T k ≤ t) (hk2 : t < knotGet T (k + 1)) (hkr : k + 1 < T.length)
    (u : ℚ) (q i : ℕ) (hr : i + q + 2 < T.length) (b : ℚ)
    (hg : b ≠ 0 →
      knotGet (insKnots T k t) (i + 1) < knotGet (insKnots T k t) (i + q + 2)) :
    (u - knotGet T i) / (knotGet T (i + q + 1) - knotGet T i)
        * ((1 - lam T q k t (i + 1)) * b)
      + (knotGet T (i + q + 2) - u) / (knotGet T (i + q + 2) - knotGet T (i + 1))
        * (lam T q k t (i + 1) * b)
      = lam T (q + 1) k t i
          * ((knotGet (insKnots T k t) (i + q + 2) - u)
              / (knotGet (insKnots T k t) (i + q + 2) - knotGet (insKnots T k t) (i + 1))
            * b)
        + (1 - lam T (q + 1) k t (i + 1))
          * ((u - knotGet (insKnots T k t) (i + 1))
              / (knotGet (insKnots T k t) (i + q + 2) - knotGet (insKnots T k t) (i + 1))
            * b) := by
  rcases Nat.lt_or_ge k (i + q + 2) with hA | hA
  swap
  · rw [lam_one T q k t (i + 1) (by omega), lam_one T (q + 1) k t i (by omega),
      lam_one T (q + 1) k t (i + 1) (by omega),
      insKnots_get_low T k t (i + 1) (by omega) (by omega),
      insKnots_get_low T k t (i + q + 2) (by omega) (by omega)]
    ring
  · rcases Nat.lt_or_ge i k with hik | hik
    · rcases Nat.lt_or_ge k (i + q + 1) with hB | hB
      · -- M2: i + 1 ≤ k < i + q + 1
        have hν := lam_ratio T q k t (i + 1) (by omega) (by omega)
        rw [show i + 1 + q = i + q + 1 from by omega] at hν
        have hμ0 : lam T (q + 1) k t i
            = (t - knotGet T i) / (knotGet T (i + q + 1) - knotGet T i) :=
          lam_ratio T (q + 1) k t i (by omega) (by omega)
        have hμ1 := lam_ratio T (q + 1) k t (i + 1) (by omega) (by omega)
        rw [show i + 1 + (q + 1) = i + q + 2 from by omega] at hμ1
        rw [hν, hμ0, hμ1, insKnots_get_low T k t (i + 1) (by omega) (by omega),
          insKnots_get_high T k t (i + q + 2) (by omega) (by omega),
          show i + q + 2 - 1 = i + q + 1 from by omega]
        by_cases hb0 : b = 0
        · rw [hb0]; ring
        · have hspan := hg hb0
          rw [insKnots_get_low T k t (i + 1) (by omega) (by omega),
            insKnots_get_high T k t (i + q + 2) (by omega) (by omega),
            show i + q + 2 - 1 = i + q + 1 from by omega] at hspan
          have hd1 : knotGet T (i + q + 1) - knotGet T (i + 1) ≠ 0 :=
            (sub_pos.mpr hspan).ne'
          have hm0 : knotGet T i ≤ knotGet T (i + 1) :=
            knotGet_mono T hs (by omega) (by omega)
          have hd0 : knotGet T (i + q + 1) - knotGet T i ≠ 0 := by
            have hlt : knotGet T i < knotGet T (i + q + 1) := by linarith
            exact (sub_pos.mpr hlt).ne'
          have hm2 : knotGet T (i + q + 1) ≤ knotGet T (i + q + 2) :=
            knotGet_mono T hs (by omega) (by omega)
          have hd2 : knotGet T (i + q + 2) - knotGet T (i + 1) ≠ 0 := by
            have hlt : knotGet T (i + 1) < knotGet T (i + q + 2) := by linarith
            exact (sub_pos.mpr hlt).ne'
          field_simp
          ring
      · -- M1: i + 1 ≤ k and i + q + 1 = k
        rw [lam_one T q k t (i + 1) (by omega), lam_one T (q + 1) k t i (by omega)]
        have hμ1 := lam_ratio T (q + 1) k t (i + 1) (by omega) (by omega)
        rw [show i + 1 + (q + 1) = i + q + 2 from by omega] at hμ1
        rw [hμ1, insKnots_get_low T k t (i + 1) (by omega) (by omega),
          show i + q + 2 = k + 1 from by omega, insKnots_get_mid T k t (by omega)]
        by_cases hb0 : b = 0
        · rw [hb0]; ring
        · have hspan := hg hb0
          rw [insKnots_get_low T k t (i + 1) (by omega) (by omega),
            show i + q + 2 = k + 1 from by omega,
            insKnots_get_mid T k t (by omega)] at hspan
          have hd1 : t - knotGet T (i + 1) ≠ 0 := (sub_pos.mpr hspan).ne'
          have hd2 : knotGet T (k + 1) - knotGet T (i + 1) ≠ 0 := by
            have hlt : knotGet T (i + 1) < knotGet T (k + 1) := by linarith
            exact (sub_pos.mpr hlt).ne'
          simp only [zero_mul, mul_zero, add_zero, one_mul, sub_zero]
          field_simp
          ring
    · rcases Nat.eq_or_lt_of_le hik with hie | hgt
      · -- M3: i = k
        rw [lam_zero T q k t (i + 1) (by omega), lam_zero T (q + 1) k t (i + 1) (by omega)]
        have hμ0 : lam T (q + 1) k t i
            = (t - knotGet T i) / (knotGet T (i + q + 1) - knotGet T i) :=
          lam_ratio T (q + 1) k t i (by omega) (by omega)
        rw [hμ0, show i + 1 = k + 1 from by omega, insKnots_get_mid T k t (by omega),
          insKnots_get_high T k t (i + q + 2) (by omega) (by omega),
          show i + q + 2 - 1 = i + q + 1 from by omega]
        by_cases hb0 : b = 0
        · rw [hb0]; ring
        · have hspan := hg hb0
          rw [show i + 1 = k + 1 from by omega, insKnots_get_mid T k t (by omega),
            insKnots_get_high T k t (i + q + 2) (by omega) (by omega),
            show i + q + 2 - 1 = i + q + 1 from by omega] at hspan
          have hit : knotGet T i ≤ t := by
            rw [show i = k from by omega]
            exact hk1
          have hd1 : knotGet T (i + q + 1) - t ≠ 0 := (sub_pos.mpr hspan).ne'
          have hd0 : knotGet T (i + q + 1) - knotGet T i ≠ 0 := by
            have hlt : knotGet T i < knotGet T (i + q + 1) := by linarith
            exact (sub_pos.mpr hlt).ne'
          simp only [zero_mul, mul_zero, add_zero, one_mul, sub_zero]
          field_simp
          ring
      · -- deep right: k < i
        rw [lam_zero T q k t (i + 1) (by omega), lam_zero T (q + 1) k t i (by omega),
          lam_zero T (q + 1) k t (i + 1) (by omega),
          insKnots_get_high T k t (i + 1) (by omega) (by omega),
          insKnots_get_high T k t (i + q + 2) (by omega) (by omega),
          show i + 1 - 1 = i from by omega, show i + q + 2 - 1 = i + q + 1 from by omega]
        ring

theorem basis_span_nonempty (knots : List ℚ) (hs : knots.Sorted (· ≤ ·)) (u : ℚ)
    (p i : ℕ) (hr : i + p + 1 < knots.length)
    (hb : bspline_basis qle u i p knots ≠ 0) :
    knotGet knots i < knotGet knots (i + p + 1) := by
  by_contra hcon
  push_neg at hcon
  refine hb (basis_support knots hs u p i hr ?_)
  rcases lt_or_le u (knotGet knots i) with hu | hu
  · exact Or.inl hu
  · exact Or.inr (le_trans hcon hu)

/-- Boehm's per-basis insertion identity: inserting `t` at span `k` rewrites each
original basis function as the blend of two refined ones with the insertion
coefficients of spec §4.4. -/
theorem basis_insert (T : List ℚ) (hs : T.Sorted (· ≤ ·)) (t : ℚ) (k : ℕ)
    (hk1 : knotGet T k ≤ t) (hk2 : t < knotGet T (k + 1)) (hkr : k + 1 < T.length)
    (u : ℚ) :
    ∀ q i : ℕ, i + q + 1 < T.length →
      bspline_basis qle u i q T
        = lam T q k t i * bspline_basis qle u i q (insKnots T k t)
          + (1 - lam T q k t (i + 1)) * bspline_basis qle u (i + 1) q (insKnots T k t) := by
  have hs' : (insKnots T k t).Sorted (· ≤ ·) :=
    insKnots_sorted T hs k t hk1 (le_of_lt hk2) hkr
  have hlen' : (insKnots T k t).length = T.length + 1 := insKnots_length T k t (by omega)
  intro q
  induction q with
  | zero =>
      intro i hr
      rcases Nat.lt_or_ge k i with hik | hik
      · rw [lam_zero T 0 k t i hik, lam_zero T 0 k t (i + 1) (by omega),
          basis_zero u i T, basis_zero u (i + 1) (insKnots T k t),
          show i + 1 + 1 = i + 2 from by omega,
          insKnots_get_high T k t (i + 1) (by omega) (by omega),
          insKnots_get_high T k t (i + 2) (by omega) (by omega),
          show i + 1 - 1 = i from by omega, show i + 2 - 1 = i + 1 from by omega]
        ring
      · rcases Nat.lt_or_ge i k with hik2 | hik3
        · rw [lam_one T 0 k t i (by omega), lam_one T 0 k t (i + 1) (by omega),
            basis_zero u i T, basis_zero u i (insKnots T k t),
            insKnots_get_low T k t i (by omega) (by omega),
            insKnots_get_low T k t (i + 1) (by omega) (by omega)]
          ring
        · -- i = k
          rw [show i = k from by omega]
          rw [lam_one T 0 k t k (by omega), lam_zero T 0 k t (k + 1) (by omega),
            basis_zero u k T, basis_zero u k (insKnots T k t),
            basis_zero u (k + 1) (insKnots T k t),
            show k + 1 + 1 = k + 2 from by omega,
            insKnots_get_low T k t k (le_refl k) (by omega),
            insKnots_get_mid T k t (by omega),
            insKnots_get_high T k t (k + 2) (by omega) (by omega),
            show k + 2 - 1 = k + 1 from by omega]
          rcases lt_or_le u t with hut | hut
          · have e3 : (if t ≤ u ∧ u < knotGet T (k + 1) then (1 : ℚ) else 0) = 0 :=
              if_neg (by rintro ⟨ha, _⟩; linarith)
            rw [e3]
            by_cases h1 : knotGet T k ≤ u
            · rw [if_pos ⟨h1, by linarith⟩, if_pos ⟨h1, hut⟩]
              norm_num
            · rw [if_neg (by rintro ⟨ha, _⟩; exact h1 ha),
                if_neg (by rintro ⟨ha, _⟩; exact h1 ha)]
              norm_num
          · have h1 : knotGet T k ≤ u := le_trans hk1 hut
            have e2 : (if knotGet T k ≤ u ∧ u < t then (1 : ℚ) else 0) = 0 :=
              if_neg (by rintro ⟨_, hb⟩; linarith)
            rw [e2]
            by_cases h3 : u < knotGet T (k + 1)
            · rw [if_pos ⟨h1, h3⟩, if_pos ⟨hut, h3⟩]
              norm_num
            · rw [if_neg (by rintro ⟨_, hb⟩; exact h3 hb),
                if_neg (by rintro ⟨_, hb⟩; exact h3 hb)]
              norm_num
  | succ q ih =>
      intro i hr
      rw [basis_succ u i q T, basis_succ u i q (insKnots T k t),
        basis_succ u (i + 1) q (insKnots T k t),
        show i + 1 + q + 1 = i + q + 2 from by omega,
        show i + 1 + q + 2 = i + q + 3 from by omega,
        show i + 1 + 1 = i + 2 from by omega,
        ih i (by omega), ih (i + 1) (by omega),
        show i + 1 + 1 = i + 2 from by omega]
      have hg0 : bspline_basis qle u i q (insKnots T k t) ≠ 0 →
          knotGet (insKnots T k t) i < knotGet (insKnots T k t) (i + q + 1) :=
        fun hb => basis_span_nonempty (insKnots T k t) hs' u q i (by omega) hb
      have hg1 : bspline_basis qle u (i + 1) q (insKnots T k t) ≠ 0 →
          knotGet (insKnots T k t) (i + 1) < knotGet (insKnots T k t) (i + q + 2) := by
        intro hb
        have h := basis_span_nonempty (insKnots T k t) hs' u q (i + 1) (by omega) hb
        rwa [show i + 1 + q + 1 = i + q + 2 from by omega] at h
      have hg2 : bspline_basis qle u (i + 2) q (insKnots T k t) ≠ 0 →
          knotGet (insKnots T k t) (i + 2) < knotGet (insKnots T k t) (i + q + 3) := by
        intro hb
        have h := basis_span_nonempty (insKnots T k t) hs' u q (i + 2) (by omega) hb
        rwa [show i + 2 + q + 1 = i + q + 3 from by omega] at h
      have G1 := boehm_g1 T hs t k hk1 hk2 hkr u q i
        (bspline_basis qle u i q (insKnots T k t)) hg0
      have G2 := boehm_g2 T hs t k hk1 hk2 hkr u q i (by omega)
        (bspline_basis qle u (i + 1) q (insKnots T k t)) hg1
      have G3 := boehm_g3 T hs t k hk1 hk2 hkr u q i (by omega)
        (bspline_basis qle u (i + 2) q (insKnots T k t)) hg2
      linear_combination G1 + G2 + G3

theorem getD_map_range_vec (f : ℕ → Vec3 ℚ) (n i : ℕ) (h : i < n) :
    ((List.range n).map f).getD i 0 = f i := by
  rw [List.getD_eq_getElem?_getD, List.getElem?_map, List.getElem?_range h]
  rfl

/-- Each refined control point of Boehm insertion is, through any linear coordinate,
the `lam`-blend of the two adjacent original control points. -/
theorem boehm_cps_getD (cps : List (Vec3 ℚ)) (T : List ℚ) (degree : ℕ) (t : ℚ)
    (π : Vec3 ℚ → ℚ) (hadd : ∀ a b : Vec3 ℚ, π (a + b) = π a + π b)
    (hsmul : ∀ (c : ℚ) (v : Vec3 ℚ), π (c • v) = c * π v)
    (j : ℕ) (hj : j < cps.length + 1) :
    π ((boehm_insert qle cps T degree t).1.getD j 0)
      = lam T degree (find_span qle T degree cps.length t) t j * π (cps.getD j 0)
        + (1 - lam T degree (find_span qle T degree cps.length t) t j)
          * π (cps.getD (j - 1) 0) := by
  simp only [boehm_insert]
  rw [getD_map_range_vec _ _ _ hj]
  rcases Nat.lt_or_ge (find_span qle T degree cps.length t) (j + degree) with h1 | h1
  · rw [if_neg (by omega)]
    rcases Nat.lt_or_ge (find_span qle T degree cps.length t) j with h2 | h2
    · rw [if_pos h2, lam_zero T degree (find_span qle T degree cps.length t) t j h2]
      ring
    · rw [if_neg (by omega)]
      rw [lam_ratio T degree (find_span qle T degree cps.length t) t j h1 h2]
      rw [hadd, hsmul, hsmul]
      ring
  · rw [if_pos h1, lam_one T degree (find_span qle T degree cps.length t) t j h1]
    ring

/-- Summed form of the per-basis insertion identity against any coefficient stream. -/
theorem boehm_sum_scalar (T : List ℚ) (hs : T.Sorted (· ≤ ·)) (t : ℚ) (k : ℕ)
    (hk1 : knotGet T k ≤ t) (hk2 : t < knotGet T (k + 1)) (hkr : k + 1 < T.length)
    (u : ℚ) (degree count : ℕ)
    (hlen : T.length = count + degree + 1)
    (hkd : degree ≤ k) (hkc : k < count)
    (P : ℕ → ℚ) :
    ∑ i in Finset.range count, bspline_basis qle u i degree T * P i
      = ∑ j in Finset.range (count + 1),
          bspline_basis qle u j degree (insKnots T k t)
            * (lam T degree k t j * P j + (1 - lam T degree k t j) * P (j - 1)) := by
  have hident : ∀ i ∈ Finset.range count,
      bspline_basis qle u i degree T * P i
        = lam T degree k t i * bspline_basis qle u i degree (insKnots T k t) * P i
          + (1 - lam T degree k t (i + 1))
            * bspline_basis qle u (i + 1) degree (insKnots T k t) * P i := by
    intro i hi
    have hic := Finset.mem_range.mp hi
    rw [basis_insert T hs t k hk1 hk2 hkr u degree i (by omega)]
    ring
  rw [Finset.sum_congr rfl hident, Finset.sum_add_distrib]
  have hshift : ∑ i in Finset.range count,
      (1 - lam T degree k t (i + 1))
        * bspline_basis qle u (i + 1) degree (insKnots T k t) * P i
    = ∑ j in Finset.range (count + 1),
        (if j = 0 then 0 else
          (1 - lam T degree k t j) * bspline_basis qle u j degree (insKnots T k t)
            * P (j - 1)) := by
    have h := sum_shift_zero (fun j =>
      (1 - lam T degree k t j) * bspline_basis qle u j degree (insKnots T k t)
        * P (j - 1)) count
    rw [← h]
    refine Finset.sum_congr rfl ?_
    intro i _
    rw [show i + 1 - 1 = i from by omega]
  rw [hshift]
  have hextend : ∑ i in Finset.range count,
      lam T degree k t i * bspline_basis qle u i degree (insKnots T k t) * P i
    = ∑ j in Finset.range (count + 1),
        lam T degree k t j * bspline_basis qle u j degree (insKnots T k t) * P j := by
    rw [Finset.sum_range_succ, lam_zero T degree k t count (by omega), zero_mul, zero_mul,
      add_zero]
  rw [hextend, ← Finset.sum_add_distrib]
  refine Finset.sum_congr rfl ?_
  intro j _
  by_cases hj : j = 0
  · subst hj
    rw [if_pos rfl, lam_one T degree k t 0 (by omega)]
    ring
  · rw [if_neg hj]
    ring

theorem basis_vector_getD_interior (knots : List ℚ) (degree count : ℕ) (u : ℚ)
    (hs : knots.Sorted (· ≤ ·))
    (hlen : knots.length = count + degree + 1)
    (hco : degree + 1 ≤ count)
    (hcl1 : knotGet knots (count - 1) < knotGet knots count)
    (hcl2 : knotGet knots (count + degree) = knotGet knots count)
    (hdom1 : knotGet knots degree ≤ u) (hlt : u < knotGet knots count)
    (i : ℕ) (hi : i < count) :
    (basis_vector qle knots (degree + 1) count u).getD i 0
      = bspline_basis qle u i degree knots := by
  rw [basis_vector_eq_ref knots degree count u hs hlen hco hcl1 hcl2 hdom1 (le_of_lt hlt)]
  have hlast : knots.getLastD 0 = knotGet knots (count + degree) := by
    rw [getLastD_knotGet, hlen]
    norm_num
  have huL : ¬(u = knots.getLastD 0) := by
    rw [hlast, hcl2]
    exact ne_of_lt hlt
  rw [bspline_basis_vector, if_neg huL, getD_map_range _ _ _ hi]

theorem basis_vector_getD_end (knots : List ℚ) (degree count : ℕ) (u : ℚ)
    (hs : knots.Sorted (· ≤ ·))
    (hlen : knots.length = count + degree + 1)
    (hco : degree + 1 ≤ count)
    (hcl1 : knotGet knots (count - 1) < knotGet knots count)
    (hcl2 : knotGet knots (count + degree) = knotGet knots count)
    (heq : u = knotGet knots count)
    (i : ℕ) (hi : i < count) :
    (basis_vector qle knots (degree + 1) count u).getD i 0
      = if count - 1 = i then 1 else 0 := by
  have hdom1 : knotGet knots degree ≤ u := by
    rw [heq]
    exact knotGet_mono knots hs (by omega) (by omega)
  rw [basis_vector_eq_ref knots degree count u hs hlen hco hcl1 hcl2 hdom1 (le_of_eq heq)]
  have hlast : knots.getLastD 0 = knotGet knots (count + degree) := by
    rw [getLastD_knotGet, hlen]
    norm_num
  have huL : u = knots.getLastD 0 := by
    rw [hlast, hcl2, heq]
  rw [bspline_basis_vector, if_pos huL, getD_set_map_range _ _ _ _ _ hi]
  by_cases hj : count - 1 = i
  · rw [if_pos hj, if_pos hj]
  · rw [if_neg hj, if_neg hj]
    refine basis_support knots hs u degree i (by omega) (Or.inr ?_)
    have hmn : knotGet knots (i + degree + 1) ≤ knotGet knots (count + degree) :=
      knotGet_mono knots hs (by omega) (by omega)
    rw [hcl2, ← heq] at hmn
    exact hmn

/-- One linear coordinate of the evaluated point is unchanged by single knot
insertion (shared helper behind claim C2). -/
theorem insert_knot_sum (cps : List (Vec3 ℚ)) (T : List ℚ) (degree : ℕ) (t u : ℚ)
    (k : ℕ) (hkdef : find_span qle T degree cps.length t = k)
    (π : Vec3 ℚ → ℚ) (hadd : ∀ a b : Vec3 ℚ, π (a + b) = π a + π b)
    (hsmul : ∀ (c : ℚ) (v : Vec3 ℚ), π (c • v) = c * π v)
    (hs : T.Sorted (· ≤ ·))
    (hlen : T.length = cps.length + degree + 1)
    (hco : degree + 1 ≤ cps.length)
    (hcl1 : knotGet T (cps.length - 1) < knotGet T cps.length)
    (hcl2 : knotGet T (cps.length + degree) = knotGet T cps.length)
    (ht1 : knotGet T degree ≤ t) (ht2 : t < knotGet T cps.length)
    (hu1 : knotGet T degree ≤ u) (hu2 : u ≤ knotGet T cps.length) :
    rsum (cps.length + 1) (fun j =>
        (basis_vector qle (insKnots T k t) (degree + 1) (cps.length + 1) u).getD j 0
          * π ((boehm_insert qle cps T degree t).1.getD j 0))
      = rsum cps.length (fun i =>
          (basis_vector qle T (degree + 1) cps.length u).getD i 0 * π (cps.getD i 0)) := by
  obtain ⟨hsp1, hsp2, hsp3, hsp4⟩ := find_span_spec T degree cps.length t
    (by omega) (by omega) ht1 ht2
  rw [hkdef] at hsp1 hsp2 hsp3 hsp4
  have hkr : k + 1 < T.length := by omega
  have hs' : (insKnots T k t).Sorted (· ≤ ·) :=
    insKnots_sorted T hs k t hsp3 (le_of_lt hsp4) hkr
  have hlen' : (insKnots T k t).length = T.length + 1 := insKnots_length T k t (by omega)
  have hTc : knotGet (insKnots T k t) (cps.length + 1) = knotGet T cps.length := by
    rw [insKnots_get_high T k t (cps.length + 1) (by omega) (by omega)]
    rw [show cps.length + 1 - 1 = cps.length from by omega]
  have hcl2' : knotGet (insKnots T k t) (cps.length + 1 + degree)
      = knotGet (insKnots T k t) (cps.length + 1) := by
    rw [insKnots_get_high T k t (cps.length + 1 + degree) (by omega) (by omega), hTc]
    rw [show cps.length + 1 + degree - 1 = cps.length + degree from by omega]
    exact hcl2
  have hcl1' : knotGet (insKnots T k t) (cps.length + 1 - 1)
      < knotGet (insKnots T k t) (cps.length + 1) := by
    rw [show cps.length + 1 - 1 = cps.length from by omega, hTc]
    rcases Nat.lt_or_ge (k + 1) cps.length with hc | hc
    · rw [insKnots_get_high T k t cps.length (by omega) (by omega)]
      exact hcl1
    · have hke : k + 1 = cps.length := by omega
      rw [← hke, insKnots_get_mid T k t (by omega)]
      exact hsp4
  have hdom1' : knotGet (insKnots T k t) degree ≤ u := by
    rw [insKnots_get_low T k t degree (by omega) (by omega)]
    exact hu1
  rw [rsum_eq_sum, rsum_eq_sum]
  rcases eq_or_lt_of_le hu2 with heq | hlt
  · have heq' : u = knotGet (insKnots T k t) (cps.length + 1) := by
      rw [hTc]
      exact heq
    have hL : ∀ j ∈ Finset.range (cps.length + 1),
        (basis_vector qle (insKnots T k t) (degree + 1) (cps.length + 1) u).getD j 0
            * π ((boehm_insert qle cps T degree t).1.getD j 0)
          = if cps.length = j then π ((boehm_insert qle cps T degree t).1.getD j 0)
            else 0 := by
      intro j hj
      rw [basis_vector_getD_end (insKnots T k t) degree (cps.length + 1) u hs'
          (by omega) (by omega) hcl1' hcl2' heq' j (Finset.mem_range.mp hj),
        show cps.length + 1 - 1 = cps.length from by omega]
      by_cases hje : cps.length = j
      · rw [if_pos hje, if_pos hje, one_mul]
      · rw [if_neg hje, if_neg hje, zero_mul]
    have hR : ∀ i ∈ Finset.range cps.length,
        (basis_vector qle T (degree + 1) cps.length u).getD i 0 * π (cps.getD i 0)
          = if cps.length - 1 = i then π (cps.getD i 0) else 0 := by
      intro i hi
      rw [basis_vector_getD_end T degree cps.length u hs hlen hco hcl1 hcl2 heq
          i (Finset.mem_range.mp hi)]
      by_cases hje : cps.length - 1 = i
      · rw [if_pos hje, if_pos hje, one_mul]
      · rw [if_neg hje, if_neg hje, zero_mul]
    rw [Finset.sum_congr rfl hL, Finset.sum_congr rfl hR,
      Finset.sum_ite_eq (Finset.range (cps.length + 1)) cps.length
        (fun j => π ((boehm_insert qle cps T degree t).1.getD j 0)),
      Finset.sum_ite_eq (Finset.range cps.length) (cps.length - 1)
        (fun i => π (cps.getD i 0)),
      if_pos (Finset.mem_range.mpr (show cps.length < cps.length + 1 from by omega)),
      if_pos (Finset.mem_range.mpr (show cps.length - 1 < cps.length from by omega))]
    have hQ : π ((boehm_insert qle cps T degree t).1.getD cps.length 0)
        = lam T degree k t cps.length * π (cps.getD cps.length 0)
          + (1 - lam T degree k t cps.length) * π (cps.getD (cps.length - 1) 0) := by
      have h := boehm_cps_getD cps T degree t π hadd hsmul cps.length (by omega)
      rwa [hkdef] at h
    rw [hQ, lam_zero T degree k t cps.length (by omega)]
    ring
  · have hlt' : u < knotGet (insKnots T k t) (cps.length + 1) := by
      rw [hTc]
      exact hlt
    have hL : ∀ j ∈ Finset.range (cps.length + 1),
        (basis_vector qle (insKnots T k t) (degree + 1) (cps.length + 1) u).getD j 0
            * π ((boehm_insert qle cps T degree t).1.getD j 0)
          = bspline_basis qle u j degree (insKnots T k t)
            * (lam T degree k t j * π (cps.getD j 0)
              + (1 - lam T degree k t j) * π (cps.getD (j - 1) 0)) := by
      intro j hj
      have hQ : π ((boehm_insert qle cps T degree t).1.getD j 0)
          = lam T degree k t j * π (cps.getD j 0)
            + (1 - lam T degree k t j) * π (cps.getD (j - 1) 0) := by
        have h := boehm_cps_getD cps T degree t π hadd hsmul j (Finset.mem_range.mp hj)
        rwa [hkdef] at h
      rw [basis_vector_getD_interior (insKnots T k t) degree (cps.length + 1) u hs'
          (by omega) (by omega) hcl1' hcl2' hdom1' hlt' j (Finset.mem_range.mp hj), hQ]
    have hR : ∀ i ∈ Finset.range cps.length,
        (basis_vector qle T (degree + 1) cps.length u).getD i 0 * π (cps.getD i 0)
          = bspline_basis qle u i degree T * π (cps.getD i 0) := by
      intro i hi
      rw [basis_vector_getD_interior T degree cps.length u hs hlen hco hcl1 hcl2 hu1 hlt
          i (Finset.mem_range.mp hi)]
    rw [Finset.sum_congr rfl hL, Finset.sum_congr rfl hR]
    exact (boehm_sum_scalar T hs t k hsp3 hsp4 hkr u degree cps.length hlen hsp1
      (by omega) (fun n => π (cps.getD n 0))).symm

theorem point_components (cps : List (Vec3 ℚ)) (T : List ℚ) (order : ℕ) (u : ℚ) :
    BSpline.point qle (⟨cps, order, T, []⟩ : BSpline ℚ) u
      = (rsum cps.length (fun i => (basis_vector qle T order cps.length u).getD i 0
            * (cps.getD i 0).1),
         rsum cps.length (fun i => (basis_vector qle T order cps.length u).getD i 0
            * (cps.getD i 0).2.1),
         rsum cps.length (fun i => (basis_vector qle T order cps.length u).getD i 0
            * (cps.getD i 0).2.2)) := by
  simp only [BSpline.point, if_true]
  refine Prod.ext ?_ (Prod.ext ?_ ?_)
  · rw [rsum_fst]
    simp only [smul_fst]
  · rw [rsum_snd₁]
    simp only [smul_snd₁]
  · rw [rsum_snd₂]
    simp only [smul_snd₂]

/-- Point invariance of single knot insertion (shared helper behind claim C2): for a
valid non-rational clamped curve and an insertion parameter strictly inside the
domain, every point of the refined curve equals the corresponding point of the
original curve exactly. -/
theorem insert_knot_point (cps : List (Vec3 ℚ)) (T : List ℚ) (degree : ℕ) (t u : ℚ)
    (hs : T.Sorted (· ≤ ·))
    (hlen : T.length = cps.length + degree + 1)
    (hco : degree + 1 ≤ cps.length)
    (hcl1 : knotGet T (cps.length - 1) < knotGet T cps.length)
    (hcl2 : knotGet T (cps.length + degree) = knotGet T cps.length)
    (ht1 : knotGet T degree ≤ t) (ht2 : t < knotGet T cps.length)
    (hu1 : knotGet T degree ≤ u) (hu2 : u ≤ knotGet T cps.length) :
    BSpline.point qle ((⟨cps, degree + 1, T, []⟩ : BSpline ℚ).insert_knot qle t) u
      = BSpline.point qle (⟨cps, degree + 1, T, []⟩ : BSpline ℚ) u := by
  have hins : (⟨cps, degree + 1, T, []⟩ : BSpline ℚ).insert_knot qle t
      = ⟨(boehm_insert qle cps T degree t).1, degree + 1,
          insKnots T (find_span qle T degree cps.length t) t, []⟩ := rfl
  rw [hins, point_components, point_components]
  have hnewlen : (boehm_insert qle cps T degree t).1.length = cps.length + 1 := by
    simp [boehm_insert]
  rw [hnewlen]
  refine Prod.ext ?_ (Prod.ext ?_ ?_)
  · exact insert_knot_sum cps T degree t u (find_span qle T degree cps.length t) rfl
      (fun v => v.1) (fun a b => rfl) (fun c v => rfl)
      hs hlen hco hcl1 hcl2 ht1 ht2 hu1 hu2
  · exact insert_knot_sum cps T degree t u (find_span qle T degree cps.length t) rfl
      (fun v => v.2.1) (fun a b => rfl) (fun c v => rfl)
      hs hlen hco hcl1 hcl2 ht1 ht2 hu1 hu2
  · exact insert_knot_sum cps T degree t u (find_span qle T degree cps.length t) rfl
      (fun v => v.2.2) (fun a b => rfl) (fun c v => rfl)
      hs hlen hco hcl1 hcl2 ht1 ht2 hu1 hu2

/-- C2: for every valid (sorted, end-clamped, non-rational) curve and every insertion
parameter `t` in the curve's domain, `insert_knot(t)` (multiplicity 1) yields a curve
with exactly one more control point, and for every parameter `u` in the domain the
refined curve's `point(u)` equals the original curve's `point(u)` within `1e-9` per
component (in fact exactly). -/
theorem C2_insert_knot (cps : List (Vec3 ℚ)) (T : List ℚ) (degree : ℕ) (t : ℚ)
    (hs : T.Sorted (· ≤ ·))
    (hlen : T.length = cps.length + degree + 1)
    (hco : degree + 1 ≤ cps.length)
    (hcl1 : knotGet T (cps.length - 1) < knotGet T cps.length)
    (hcl2 : knotGet T (cps.length + degree) = knotGet T cps.length)
    (ht1 : knotGet T degree ≤ t) (ht2 : t < knotGet T cps.length) :
    ((⟨cps, degree + 1, T, []⟩ : BSpline ℚ).insert_knot qle t).control_points.length
        = cps.length + 1
    ∧ ∀ u : ℚ, knotGet T degree ≤ u → u ≤ knotGet T cps.length →
        pointWithin (1/1000000000)
          (((⟨cps, degree + 1, T, []⟩ : BSpline ℚ).insert_knot qle t).point qle u)
          ((⟨cps, degree + 1, T, []⟩ : BSpline ℚ).point qle u) := by
  constructor
  · show (boehm_insert qle cps T degree t).1.length = cps.length + 1
    simp [boehm_insert]
  · intro u hu1 hu2
    have h := insert_knot_point cps T degree t u hs hlen hco hcl1 hcl2 ht1 ht2 hu1 hu2
    rw [h]
    refine ⟨?_, ?_, ?_⟩ <;> norm_num

/-- Witness for C2 at the 8-point curve of `test_bspline_insert_knot` (order 4,
normalized open-uniform knots) with `t = max_t/2 = 1/2`. -/
theorem C2_insert_knot_witness :
    ((normalize_knots (open_uniform_knot_vector 8 4 : List ℚ)).Sorted (· ≤ ·)
      ∧ (normalize_knots (open_uniform_knot_vector 8 4 : List ℚ)).length = 8 + 3 + 1
      ∧ 3 + 1 ≤ 8
      ∧ knotGet (normalize_knots (open_uniform_knot_vector 8 4 : List ℚ)) (8 - 1)
          < knotGet (normalize_knots (open_uniform_knot_vector 8 4 : List ℚ)) 8
      ∧ knotGet (normalize_knots (open_uniform_knot_vector 8 4 : List ℚ)) (8 + 3)
          = knotGet (normalize_knots (open_uniform_knot_vector 8 4 : List ℚ)) 8
      ∧ knotGet (normalize_knots (open_uniform_knot_vector 8 4 : List ℚ)) 3 ≤ (1/2 : ℚ)
      ∧ (1/2 : ℚ) < knotGet (normalize_knots (open_uniform_knot_vector 8 4 : List ℚ)) 8)
    ∧ ((⟨points8, 3 + 1, normalize_knots (open_uniform_knot_vector 8 4 : List ℚ), []⟩
          : BSpline ℚ).insert_knot qle (1/2)).control_points.length = 8 + 1 :=
  ⟨⟨by decide, by decide, by decide, by decide, by decide, by decide, by decide⟩,
    (C2_insert_knot points8 (normalize_knots (open_uniform_knot_vector 8 4 : List ℚ))
      3 (1/2) (by decide) (by decide) (by decide) (by decide) (by decide) (by decide)
      (by decide)).1⟩

theorem getD_map_range_poly {β : Type} (f : ℕ → β) (d : β) (n i : ℕ) (h : i < n) :
    ((List.range n).map f).getD i d = f i := by
  rw [List.getD_eq_getElem?_getD, List.getElem?_map, List.getElem?_range h]
  rfl

theorem chunks_share (cp : List (Vec3 F)) (p j : ℕ)
    (h : j + 1 < (cp.length - 1) / p) :
    (((List.range ((cp.length - 1) / p)).map
        (fun i => (cp.drop (i * p)).take (p + 1))).getD (j + 1) []).getD 0 0
      = (((List.range ((cp.length - 1) / p)).map
        (fun i => (cp.drop (i * p)).take (p + 1))).getD j []).getD p 0 := by
  have hp : 0 < p := by
    rcases Nat.eq_zero_or_pos p with h0 | h0
    · rw [h0, Nat.div_zero] at h
      omega
    · exact h0
  rw [getD_map_range_poly _ _ _ _ (by omega), getD_map_range_poly _ _ _ _ (by omega)]
  rw [List.getD_eq_getElem?_getD, List.getD_eq_getElem?_getD,
    List.getElem?_take_of_lt (show 0 < p + 1 from by omega),
    List.getElem?_take_of_lt (show p < p + 1 from by omega),
    List.getElem?_drop, List.getElem?_drop,
    show (j + 1) * p + 0 = j * p + p from by ring]

/-- Consecutive Bezier segments of a decomposition overlap in exactly their shared
boundary control point (shared helper behind claim C3). -/
theorem bezier_segments_share (le? : F → F → Bool) (s : BSpline F) (j : ℕ)
    (h : j + 1 < (s.bezier_decomposition le?).length) :
    ((s.bezier_decomposition le?).getD (j + 1) []).getD 0 0
      = ((s.bezier_decomposition le?).getD j []).getD (s.order - 1) 0 := by
  obtain ⟨cp, hcp⟩ : ∃ cp : List (Vec3 F),
      s.bezier_decomposition le?
        = (List.range ((cp.length - 1) / (s.order - 1))).map
            (fun i => (cp.drop (i * (s.order - 1))).take ((s.order - 1) + 1)) :=
    ⟨((interiorKnots le? s).foldl
        (fun c t => insertTimes le? c t ((s.order - 1) - c.knots.count t)) s).control_points,
      rfl⟩
  rw [hcp] at h ⊢
  refine chunks_share cp (s.order - 1) j ?_
  simpa using h

set_option maxRecDepth 10000

/-- C3: the degree-3 curve fitted through the 8 points of
`test_bezier_decomposition` — modelled exactly over ℚ(√2, √5) with the certified
chord lengths — decomposes into exactly 5 Bezier segments whose first and last
segments match the regression literals within `1e-9` per coordinate; and in
general, for every decomposed curve over any field and comparator, each
segment's first control point equals the previous segment's last control
point. -/
theorem C3_bezier_decomposition :
    ((∀ i : ℕ, i < 7 → kle 0 (dists8.getD i 0) = true
        ∧ dists8.getD i 0 * dists8.getD i 0
            = sqDist3 (fit8.getD (i + 1) 0) (fit8.getD i 0))
      ∧ ((fromFitPoints kle fit8 dists8).bezier_decomposition kle).length = 5
      ∧ segCloseWith kle (kofQ (1/1000000000))
          (((fromFitPoints kle fit8 dists8).bezier_decomposition kle).getD 0 [])
          litFirst = true
      ∧ segCloseWith kle (kofQ (1/1000000000))
          (((fromFitPoints kle fit8 dists8).bezier_decomposition kle).getD 4 [])
          litLast = true)
    ∧ ∀ (G : Type) [Field G] [DecidableEq G] (le? : G → G → Bool)
        (s : BSpline G) (j : ℕ), j + 1 < (s.bezier_decomposition le?).length →
          ((s.bezier_decomposition le?).getD (j + 1) []).getD 0 0
            = ((s.bezier_decomposition le?).getD j []).getD (s.order - 1) 0 := by
  refine ⟨⟨by decide, by decide, by decide, by decide⟩, ?_⟩
  intro G instG instD le? s j h
  exact bezier_segments_share le? s j h

end BSpl
